import Mathlib

/-!
# truenas2gatus: bounded result store, pool evaluator and polling loop

A shallow embedding of `storage.go`, `main.go`, `gatus/gatus.go`,
`truenas/pool.go` and `truenas/truenas.go`.

Conventions of the embedding:

* a Go `string` (and `[]byte`) is a list of bytes, a byte is a `Fin 256`;
* a Go `int`, `int64` or `time.Duration` is an `Int` (no arithmetic is done on them);
* a Go slice is a `List` (a nil slice and an empty slice are both `[]`), a pointer
  to a struct is the struct;
* a `time.Time` is its date, time of day and zone offset;
* an `error` is a `GoError`, a nil error is `none`;
* the outside world (file system, HTTP transport, clock) is passed in explicitly;
* the store is generic in the JSON codec; `goJSON` is a model of what encoding/json,
  unicode/utf8 and package time do with a history of records.
-/

namespace Truenas2Gatus

/-! ## Strings -/

/-- Go `byte`. -/
abbrev Byte := Fin 256

/-- Go `string`: an immutable sequence of bytes, not necessarily valid UTF-8. -/
abbrev GoString := List Byte

/-- The byte with the given value (reduced modulo 256, as a Go `byte(x)` conversion). -/
def byte (n : Nat) : Byte := ⟨n % 256, Nat.mod_lt n (by decide)⟩

/-- Go `utf8.AppendRune`: the UTF-8 encoding of a rune; surrogates and values above
`0x10FFFF` are encoded as `U+FFFD`. -/
def encodeRune (r : Nat) : GoString :=
  if r < 0x80 then [byte r]
  else if r ≤ 0x7FF then [byte (0xC0 + r / 64), byte (0x80 + r % 64)]
  else if 0x10FFFF < r ∨ (0xD800 ≤ r ∧ r ≤ 0xDFFF) then [byte 0xEF, byte 0xBF, byte 0xBD]
  else if r ≤ 0xFFFF then
    [byte (0xE0 + r / 4096), byte (0x80 + r / 64 % 64), byte (0x80 + r % 64)]
  else
    [byte (0xF0 + r / 262144), byte (0x80 + r / 4096 % 64), byte (0x80 + r / 64 % 64),
      byte (0x80 + r % 64)]

/-- A Go string literal: the UTF-8 bytes of the text. -/
def str (s : String) : GoString := s.toList.flatMap fun c => encodeRune c.toNat

/-- Decimal digits of a natural number, least significant first. -/
def digitsRev : Nat → Nat → List Byte
  | 0, _ => []
  | fuel + 1, n => if n < 10 then [byte (48 + n)] else byte (48 + n % 10) :: digitsRev fuel (n / 10)

/-- The decimal rendering of a natural number (`strconv.AppendUint`, base 10). -/
def formatNat (n : Nat) : GoString := (digitsRev (n + 1) n).reverse

/-- The decimal rendering of an integer (`strconv.AppendInt`, base 10; the verb `%d`). -/
def formatInt (i : Int) : GoString :=
  if i < 0 then byte 45 :: formatNat i.natAbs else formatNat i.natAbs

/-! ## Package unicode/utf8 -/

/-- Constant `utf8.RuneError`, U+FFFD. -/
def RuneError : Nat := 0xFFFD

/-- The lowest second byte accepted after the first byte `p0` (table `acceptRanges` of
unicode/utf8). -/
def acceptLo (p0 : Byte) : Nat :=
  if p0.val = 0xE0 then 0xA0 else if p0.val = 0xF0 then 0x90 else 0x80

/-- The highest second byte accepted after the first byte `p0`. -/
def acceptHi (p0 : Byte) : Nat :=
  if p0.val = 0xED then 0x9F else if p0.val = 0xF4 then 0x8F else 0xBF

/-- Go `utf8.DecodeRune`: the first rune of `p` and its width in bytes; `(RuneError, 1)`
for an invalid or truncated encoding and `(RuneError, 0)` for the empty string. -/
def decodeRune (p : GoString) : Nat × Nat :=
  match p with
  | [] => (RuneError, 0)
  | p0 :: rest =>
    if p0.val < 0x80 then (p0.val, 1)
    else if p0.val < 0xC2 ∨ 0xF4 < p0.val then (RuneError, 1)
    else
      match rest with
      | [] => (RuneError, 1)
      | b1 :: rest1 =>
        if p0.val < 0xE0 then
          if b1.val < acceptLo p0 ∨ acceptHi p0 < b1.val then (RuneError, 1)
          else (p0.val % 32 * 64 + b1.val % 64, 2)
        else
          match rest1 with
          | [] => (RuneError, 1)
          | b2 :: rest2 =>
            if p0.val < 0xF0 then
              if b1.val < acceptLo p0 ∨ acceptHi p0 < b1.val then (RuneError, 1)
              else if b2.val < 0x80 ∨ 0xBF < b2.val then (RuneError, 1)
              else (p0.val % 16 * 4096 + b1.val % 64 * 64 + b2.val % 64, 3)
            else
              match rest2 with
              | [] => (RuneError, 1)
              | b3 :: _ =>
                if b1.val < acceptLo p0 ∨ acceptHi p0 < b1.val then (RuneError, 1)
                else if b2.val < 0x80 ∨ 0xBF < b2.val then (RuneError, 1)
                else if b3.val < 0x80 ∨ 0xBF < b3.val then (RuneError, 1)
                else
                  (p0.val % 8 * 262144 + b1.val % 64 * 4096 + b2.val % 64 * 64 + b3.val % 64, 4)

/-- Whether `decodeRune` reported an invalid byte. -/
def invalidRune (d : Nat × Nat) : Bool := d.1 = RuneError ∧ d.2 = 1

/-- The loop of Go `utf8.Valid`. -/
def utf8ValidLoop : Nat → GoString → Bool
  | _, [] => true
  | 0, _ :: _ => false
  | fuel + 1, b :: rest =>
    if invalidRune (decodeRune (b :: rest)) then false
    else utf8ValidLoop fuel ((b :: rest).drop (decodeRune (b :: rest)).2)

/-- Go `utf8.Valid`. -/
def utf8Valid (s : GoString) : Bool := utf8ValidLoop s.length s

/-! ## Errors -/

/-- Go `error` values as this program sees them.
`errorString` stands for any error of the standard library (net/http, io, os,
encoding/json) with its message, `wrapError` for the result of `fmt.Errorf` with `%w`
(message and wrapped error), `trueNasError` for a `*truenas.TrueNasError` with its three
fields. -/
inductive GoError where
  | errorString (msg : GoString) : GoError
  | wrapError (msg : GoString) (err : GoError) : GoError
  | trueNasError (Reason : Option GoError) (StatusCode : Int) (StatusMessage : GoString) : GoError

/-- The `Error() string` method. For `*TrueNasError` this is `TrueNasError.Error` of
truenas.go: the reason's message when `Reason != nil`, else
`fmt.Sprintf("[%d] %s", t.StatusCode, t.StatusMessage)`. -/
def GoError.Error : GoError → GoString
  | .errorString msg => msg
  | .wrapError msg _ => msg
  | .trueNasError (some reason) _ _ => reason.Error
  | .trueNasError none code message => str "[" ++ formatInt code ++ str "] " ++ message

/-- Go `fmt.Errorf(format + ": %w", err)`. -/
def Errorf (msg : String) (err : GoError) : GoError :=
  .wrapError (str msg ++ str ": " ++ err.Error) err

/-- Go `errors.As(err, &trueNasErr)` for a target of type `*TrueNasError`: the first error
in the chain of `err` that is a `*TrueNasError`, returned as its `StatusCode`
(the only field the caller reads). `TrueNasError` has no `Unwrap` method. -/
def asTrueNasError : GoError → Option Int
  | .errorString _ => none
  | .wrapError _ err => asTrueNasError err
  | .trueNasError _ code _ => some code

/-! ## Package truenas -/

/-- Constant `PoolStatusOnline` of pool.go. -/
def PoolStatusOnline : GoString := str "ONLINE"

/-- Struct `Pool` of pool.go. -/
structure Pool where
  ID : Int
  Name : GoString
  GUID : GoString
  Path : GoString
  Status : GoString
  Errors : Int
  Healthy : Bool
  Warning : Bool
  StatusCode : GoString
  StatusDetail : GoString
  deriving DecidableEq

/-- Function `IsPoolHealthy` of pool.go. -/
def IsPoolHealthy (pool : Pool) : Bool :=
  if pool.Status ≠ PoolStatusOnline then false
  else if !pool.Healthy then false
  else if pool.Warning then false
  else if pool.Errors > 0 then false
  else true

/-- What the HTTP transport does with one request in `do` of truenas.go. -/
inductive Transport where
  | doFails (err : GoError) : Transport
  | readFails (status : Int) (err : GoError) : Transport
  | response (status : Int) (body : GoString) : Transport

/-- The world as seen by one call of `GetPools`: whether `http.NewRequest` accepts the
URL, what the transport answers, and how `json.Unmarshal` decodes a body into pools. -/
structure PoolsEnv where
  newRequest : Option GoError
  transport : Transport
  unmarshal : GoString → Except GoError (List Pool)

/-- Function `do` of truenas.go, for the result type `*[]Pool`. -/
def «do» (env : PoolsEnv) : Except GoError (List Pool) :=
  match env.transport with
  | .doFails err => .error (.trueNasError (some err) 0 [])
  | .readFails _ err => .error (.trueNasError (some err) 0 [])
  | .response status body =>
    if status ≥ 400 then .error (.trueNasError none status body)
    else
      match env.unmarshal body with
      | .error err => .error (.trueNasError (some err) 0 [])
      | .ok pools => .ok pools

/-- Method `Client.GetPools` of pool.go. -/
def GetPools (env : PoolsEnv) : Except GoError (List Pool) :=
  match env.newRequest with
  | some err => .error (.trueNasError (some err) 0 [])
  | none => «do» env

/-! ## Package time -/

/-- Whether the year is a leap year (`isLeap` of package time). -/
def isLeap (year : Int) : Bool := year % 4 = 0 ∧ (year % 100 ≠ 0 ∨ year % 400 = 0)

/-- The number of days of a month (`daysIn` of package time). -/
def daysIn (month : Nat) (year : Int) : Nat :=
  if month = 2 then (if isLeap year then 29 else 28)
  else if month = 4 ∨ month = 6 ∨ month = 9 ∨ month = 11 then 30
  else 31

/-- Whether the fields are a date and a time of day. -/
def validClock (year : Int) (month day hour minute second nsec : Nat) : Bool :=
  1 ≤ month ∧ month ≤ 12 ∧ 1 ≤ day ∧ day ≤ daysIn month year ∧ hour < 24 ∧ minute < 60 ∧
    second < 60 ∧ nsec < 1000000000

/-- Go `time.Time` as far as JSON carries it: the date and the time of day in the zone of
the value (what `Date`, `Clock` and `Nanosecond` return) and the offset of that zone in
minutes east of UTC. The monotonic clock reading and the name of the location are not
modelled. -/
structure Time where
  year : Int
  month : Nat
  day : Nat
  hour : Nat
  minute : Nat
  second : Nat
  nsec : Nat
  offset : Int
  valid : validClock year month day hour minute second nsec = true
  deriving DecidableEq

/-- A number below 100 as two decimal digits. -/
def pad2 (n : Nat) : GoString := [byte (48 + n / 10 % 10), byte (48 + n % 10)]

/-- The digits of the fraction of a second, `width` digits without the trailing zeros
(`appendNano` of package time, after the point). -/
def fracDigits : Nat → Nat → GoString
  | 0, _ => []
  | width + 1, n => if n = 0 then [] else byte (48 + n / 10 ^ width % 10) :: fracDigits width (n % 10 ^ width)

/-- The zone of an RFC 3339 time as `appendFormatRFC3339` writes it: `Z` for UTC, else
the sign, the hours and the minutes of the offset. -/
def zoneText (offset : Int) : GoString :=
  if offset = 0 then [byte 0x5A]
  else (if offset < 0 then [byte 0x2D] else [byte 0x2B]) ++ pad2 (offset.natAbs / 60) ++
    [byte 0x3A] ++ pad2 (offset.natAbs % 60)

/-- Method `Time.appendStrictRFC3339` with nanoseconds, as used by `Time.MarshalJSON`:
`none` for a year outside [0, 9999] or a zone offset of 24 hours or more. -/
def formatRFC3339 (t : Time) : Option GoString :=
  if t.year < 0 ∨ 9999 < t.year then none
  else if 24 ≤ t.offset.natAbs / 60 then none
  else
    some (pad2 (t.year.natAbs / 100) ++ pad2 (t.year.natAbs % 100) ++ [byte 0x2D] ++ pad2 t.month ++
      [byte 0x2D] ++ pad2 t.day ++ [byte 0x54] ++ pad2 t.hour ++ [byte 0x3A] ++ pad2 t.minute ++
      [byte 0x3A] ++ pad2 t.second ++
      (if t.nsec = 0 then [] else byte 0x2E :: fracDigits 9 t.nsec) ++ zoneText t.offset)



/-- Whether the byte is a decimal digit. -/
def isDigit (c : Byte) : Bool := 0x30 ≤ c.val ∧ c.val ≤ 0x39

/-- The value of the two digits at the head of the text, with the text after them. -/
def parse2 (s : GoString) : Option (Nat × GoString) :=
  match s with
  | a :: b :: rest =>
    if isDigit a ∧ isDigit b then some ((a.val - 48) * 10 + (b.val - 48), rest) else none
  | _ => none

/-- The text after the given byte, when the text starts with it. -/
def expect (c : Nat) (s : GoString) : Option GoString :=
  match s with
  | b :: rest => if b.val = c then some rest else none
  | [] => none

/-- The digits after the decimal point (`parseNanoseconds` of package time): the value
of the first `width` digits scaled to `width` places, and the text after all the digits. -/
def parseFrac : Nat → GoString → Nat × GoString
  | _, [] => (0, [])
  | 0, c :: rest => if isDigit c then parseFrac 0 rest else (0, c :: rest)
  | width + 1, c :: rest =>
    if isDigit c then
      ((c.val - 48) * 10 ^ width + (parseFrac width rest).1, (parseFrac width rest).2)
    else (0, c :: rest)

/-- The optional fraction of a second of an RFC 3339 time, a point followed by at least
one digit: the nanoseconds and the text after the fraction. -/
def parseFraction (s : GoString) : Nat × GoString :=
  match s with
  | p :: d :: rest => if p.val = 0x2E ∧ isDigit d then parseFrac 9 (d :: rest) else (0, s)
  | _ => (0, s)

/-- The zone of an RFC 3339 time: `Z`, or a sign with hours (at most 23) and minutes
(at most 59); the offset in minutes and the text after it. -/
def parseZone (s : GoString) : Option (Int × GoString) :=
  match s with
  | [] => none
  | c :: rest =>
    if c.val = 0x5A then some (0, rest)
    else if c.val = 0x2B ∨ c.val = 0x2D then
      match parse2 rest with
      | none => none
      | some (hh, rest) =>
        match expect 0x3A rest with
        | none => none
        | some rest =>
          match parse2 rest with
          | none => none
          | some (mm, rest) =>
            if 23 < hh ∨ 59 < mm then none
            else some (if c.val = 0x2D then -((hh * 60 + mm : Nat) : Int) else ((hh * 60 + mm : Nat) : Int), rest)
    else none

/-- Function `parseRFC3339` of package time, reading from the head of the text: the time
and the text after it. -/
def parseRFC3339 (s : GoString) : Option (Time × GoString) :=
  match parse2 s with
  | none => none
  | some (century, s) =>
  match parse2 s with
  | none => none
  | some (yy, s) =>
  match expect 0x2D s with
  | none => none
  | some s =>
  match parse2 s with
  | none => none
  | some (month, s) =>
  match expect 0x2D s with
  | none => none
  | some s =>
  match parse2 s with
  | none => none
  | some (day, s) =>
  match expect 0x54 s with
  | none => none
  | some s =>
  match parse2 s with
  | none => none
  | some (hour, s) =>
  match expect 0x3A s with
  | none => none
  | some s =>
  match parse2 s with
  | none => none
  | some (minute, s) =>
  match expect 0x3A s with
  | none => none
  | some s =>
  match parse2 s with
  | none => none
  | some (second, s) =>
    match parseZone (parseFraction s).2 with
    | none => none
    | some (offset, rest) =>
      if h : validClock ((century * 100 + yy : Nat) : Int) month day hour minute second
          (parseFraction s).1 = true
      then some (⟨((century * 100 + yy : Nat) : Int), month, day, hour, minute, second,
        (parseFraction s).1, offset, h⟩, rest)
      else none

/-! ## Package gatus -/

/-- Struct `ConditionResult` of gatus.go. -/
structure ConditionResult where
  Condition : GoString
  Success : Bool
  deriving DecidableEq

/-- Struct `Result` of gatus.go. -/
structure Result where
  HTTPStatus : Int
  Hostname : GoString
  Duration : Int
  Errors : List GoString
  ConditionResults : List ConditionResult
  Success : Bool
  Timestamp : Time
  deriving DecidableEq

/-- Go `url.URL`; only the `Host` field is read. -/
structure URL where
  Host : GoString
  deriving DecidableEq

/-! ## storage.go -/

/-- The two library calls the store makes on its history: `json.NewEncoder(w).Encode`
(the bytes it writes, or the marshalling error) and `json.NewDecoder(r).Decode` on the
bytes of the file. The store is generic in them; `goJSON` below is the model of
encoding/json. -/
structure Codec where
  encode : List Result → Except GoError GoString
  decode : GoString → Except GoError (List Result)

/-- The files of the machine: the content of the file at each path, `none` where there is
no file. -/
abbrev FileSystem := GoString → Option GoString

/-- The file system with the content of one file replaced. -/
def FileSystem.set (fs : FileSystem) (path : GoString) (content : GoString) : FileSystem :=
  fun p => if p = path then some content else fs p

/-- An I/O failure injected into one call of the store: the operating system refuses the
open, the stat, or accepts only the first `written` bytes of the write. -/
inductive Fault where
  | none : Fault
  | openFails (err : GoError) : Fault
  | statFails (err : GoError) : Fault
  | writeFails (written : Nat) (err : GoError) : Fault

/-- Go `os.OpenFile(path, flags, 0664)` with `O_RDWR`, and `O_CREATE` when `create`:
the file system afterwards, or the error. Without `O_CREATE` a missing file is an
error; no flag truncates an existing file. -/
def OpenFile (fs : FileSystem) (fault : Fault) (path : GoString) (create : Bool) :
    Except GoError FileSystem :=
  match fault with
  | .openFails err => .error err
  | _ =>
    match fs path with
    | some _ => .ok fs
    | none =>
      if create then .ok (fs.set path [])
      else .error (.errorString (str "open " ++ path ++ str ": no such file or directory"))

/-- Writing `data` at offset 0 of a file opened without `O_TRUNC`: the first bytes are
replaced, the bytes of the old content beyond the written length stay. -/
def overwrite (old data : GoString) : GoString := data ++ old.drop data.length

/-- Struct `fileStore` of storage.go (the mutex is not modelled: calls are sequential). -/
structure fileStore where
  dataPath : GoString
  resultsToKeep : Int
  results : List Result
  deriving DecidableEq

/-- Function `NewFileStore` of storage.go: the store or the error, and the file system
afterwards. -/
def NewFileStore (codec : Codec) (fs : FileSystem) (fault : Fault) (dataPath : GoString)
    (resultsToKeep : Int) : Except GoError fileStore × FileSystem :=
  match OpenFile fs fault dataPath true with
  | .error err => (.error (Errorf "failed to open data file" err), fs)
  | .ok fs =>
    match fault with
    | .statFails err => (.error (Errorf "failed to stat data file" err), fs)
    | _ =>
      let content := (fs dataPath).getD []
      if content.length > 0 then
        match codec.decode content with
        | .error err => (.error (Errorf "failed to decode existing results" err), fs)
        | .ok results =>
          (.ok { dataPath := dataPath, resultsToKeep := resultsToKeep, results := results }, fs)
      else
        (.ok { dataPath := dataPath, resultsToKeep := resultsToKeep, results := [] }, fs)

/-- The second half of `fileStore.SaveResult` (from `os.OpenFile` on): the history is
opened without `O_CREATE` and without `O_TRUNC`, and the encoding of the whole history
is written from offset 0. The file system afterwards and the returned error. -/
def fileStore.writeResults (codec : Codec) (f : fileStore) (fs : FileSystem) (fault : Fault) :
    FileSystem × Option GoError :=
  match OpenFile fs fault f.dataPath false with
  | .error err => (fs, some (Errorf "failed to open data file" err))
  | .ok fs =>
    match codec.encode f.results with
    | .error err => (fs, some (Errorf "failed to encode results" err))
    | .ok data =>
      let old := (fs f.dataPath).getD []
      match fault with
      | .writeFails written err =>
        (fs.set f.dataPath (overwrite old (data.take written)),
          some (Errorf "failed to encode results" err))
      | _ => (fs.set f.dataPath (overwrite old data), none)

/-- Method `fileStore.SaveResult` of storage.go: the store afterwards, the file system
afterwards and the returned error. -/
def fileStore.SaveResult (codec : Codec) (f : fileStore) (fs : FileSystem) (fault : Fault)
    (result : Result) : fileStore × FileSystem × Option GoError :=
  let f := { f with results := f.results ++ [result] }
  let f := if (f.results.length : Int) > f.resultsToKeep then
    { f with results := f.results.drop 1 } else f
  let written := f.writeResults codec fs fault
  (f, written.1, written.2)

/-- Method `fileStore.GetResults` of storage.go. -/
def fileStore.GetResults (f : fileStore) : List Result × Option GoError :=
  (f.results, none)

/-- A sequence of `SaveResult` calls, one after another, each with its own I/O fault. -/
def saveAll (codec : Codec) (f : fileStore) (fs : FileSystem) :
    List (Fault × Result) → fileStore × FileSystem
  | [] => (f, fs)
  | (fault, result) :: rest =>
    let out := f.SaveResult codec fs fault result
    saveAll codec out.1 out.2.1 rest

/-! ## main.go -/

/-- The setup of `trueNasHostUrl` in `main`: `trueNasHostUrl, err := url.Parse(host)`,
where an error is only logged (no `os.Exit`, unlike the other setup errors), so the
goroutine goes on with the nil URL that `url.Parse` returns with an error. `parse`
is `url.Parse`. -/
def parseHostUrl (parse : GoString → Except GoError URL) (host : GoString) : Option URL :=
  match parse host with
  | .error _ => none
  | .ok url => some url

/-- The loop over `pools` in `queryAndSave`: the slice `conditions` and the flag
`overallFailure` after the pools seen so far, starting from the given values. -/
def poolLoop (pools : List Pool) (conditions : List ConditionResult) (overallFailure : Bool) :
    List ConditionResult × Bool :=
  match pools with
  | [] => (conditions, overallFailure)
  | pool :: rest =>
    if !IsPoolHealthy pool then
      poolLoop rest
        (conditions ++ [{ Condition := pool.Name ++ str " == Healthy", Success := false }]) true
    else
      poolLoop rest
        (conditions ++ [{ Condition := pool.Name ++ str " == Healthy", Success := true }])
        overallFailure

/-- The value of `result` that `queryAndSave` hands to `SaveResult`, for a non-nil
`trueNasHostUrl`: `outcome` is what `GetPools` returned, `elapsed` is `time.Since(start)`
and `now` the value of the final `time.Now()`. -/
def buildResult (outcome : Except GoError (List Pool)) (elapsed : Int) (now : Time)
    (trueNasHostUrl : URL) : Result :=
  match outcome with
  | .error err =>
    let httpStatus : Int :=
      match asTrueNasError err with
      | some code => code
      | none => 0
    { HTTPStatus := httpStatus
      Hostname := trueNasHostUrl.Host
      Duration := elapsed
      Errors := [err.Error]
      Success := false
      Timestamp := now
      ConditionResults := [{ Success := false, Condition := str "Connected == false" }] }
  | .ok pools =>
    let loop := poolLoop pools [] false
    { HTTPStatus := 0
      Hostname := trueNasHostUrl.Host
      Duration := elapsed
      Errors := []
      Success := !loop.2
      ConditionResults := loop.1
      Timestamp := now }

/-- Function `queryAndSave` of main.go. The result is `none` when `trueNasHostUrl` is nil
(reading `trueNasHostUrl.Host` panics); otherwise the record built, and the store and
file system after `st.SaveResult(result)`, whose error is only logged. -/
def queryAndSave (codec : Codec) (env : PoolsEnv) (elapsed : Int) (now : Time) (st : fileStore)
    (fs : FileSystem) (fault : Fault) (trueNasHostUrl : Option URL) :
    Option (Result × fileStore × FileSystem) :=
  match trueNasHostUrl with
  | none => none
  | some url =>
    let result := buildResult (GetPools env) elapsed now url
    let saved := st.SaveResult codec fs fault result
    some (result, saved.1, saved.2.1)

/-! ### The polling goroutine of `main` -/

/-- State of `queryTimer`, created once by `time.NewTimer(interval)`: waiting for the
interval to pass, fired (a value waits in `queryTimer.C`), or spent (the value was
received; a timer fires once and the loop never calls `Reset`). -/
inductive TimerState where
  | armed : TimerState
  | fired : TimerState
  | spent : TimerState
  deriving DecidableEq

/-- Where the polling goroutine stands: blocked in `select`, inside `queryAndSave`, or
returned. -/
inductive LoopPhase where
  | waiting : LoopPhase
  | probing : LoopPhase
  | terminated : LoopPhase
  deriving DecidableEq

/-- Timer state, context state and control state of the polling goroutine, with the number
of completed `queryAndSave` calls. -/
structure LoopState where
  timer : TimerState
  cancelled : Bool
  phase : LoopPhase
  probes : Nat
  deriving DecidableEq

/-- What can happen next: the interval of an armed timer elapses, the context is
cancelled, or the goroutine runs (`preferTimer` is the choice `select` makes when both
cases are ready). -/
inductive LoopEvent where
  | intervalElapsed : LoopEvent
  | cancel : LoopEvent
  | run (preferTimer : Bool) : LoopEvent
  deriving DecidableEq

/-- The goroutine right after `queryTimer := time.NewTimer(interval)`. -/
def LoopState.init : LoopState :=
  { timer := .armed, cancelled := false, phase := .waiting, probes := 0 }

/-- One step of the polling goroutine `for { select { case <-ctx.Done(): return;
case <-queryTimer.C: queryAndSave(...) } }`. -/
def LoopState.step (s : LoopState) : LoopEvent → LoopState
  | .intervalElapsed => if s.timer = .armed then { s with timer := .fired } else s
  | .cancel => { s with cancelled := true }
  | .run preferTimer =>
    match s.phase with
    | .terminated => s
    | .probing => { s with phase := .waiting, probes := s.probes + 1 }
    | .waiting =>
      if s.timer = .fired ∧ (s.cancelled = false ∨ preferTimer = true) then
        { s with timer := .spent, phase := .probing }
      else if s.cancelled then { s with phase := .terminated }
      else s

/-- The state after a sequence of events. -/
def LoopState.run (s : LoopState) (events : List LoopEvent) : LoopState :=
  events.foldl LoopState.step s

/-! ## encoding/json: strings -/

/-- The digit of value `n < 16` in `"0123456789abcdef"`. -/
def hexDigit (n : Nat) : Byte := if n < 10 then byte (48 + n) else byte (87 + n)

/-- Table `htmlSafeSet` of encoding/json: the ASCII bytes written as they are. -/
def htmlSafe (b : Byte) : Bool :=
  0x20 ≤ b.val ∧ b.val < 0x80 ∧ b.val ≠ 0x22 ∧ b.val ≠ 0x26 ∧ b.val ≠ 0x3C ∧ b.val ≠ 0x3E ∧
    b.val ≠ 0x5C

/-- The escape sequence `appendString` writes for an ASCII byte outside `htmlSafeSet`
(`\b` and `\f` as since Go 1.22; older versions write `\u0008` and `\u000c`, which
the decoder reads alike). -/
def escapeByte (b : Byte) : GoString :=
  if b.val = 0x5C ∨ b.val = 0x22 then [byte 0x5C, b]
  else if b.val = 0x08 then [byte 0x5C, byte 0x62]
  else if b.val = 0x0C then [byte 0x5C, byte 0x66]
  else if b.val = 0x0A then [byte 0x5C, byte 0x6E]
  else if b.val = 0x0D then [byte 0x5C, byte 0x72]
  else if b.val = 0x09 then [byte 0x5C, byte 0x74]
  else [byte 0x5C, byte 0x75, byte 0x30, byte 0x30, hexDigit (b.val / 16), hexDigit (b.val % 16)]

/-- The loop of `appendString` of encoding/json (with `escapeHTML`): the bytes written
between the quotes for the remaining source bytes. -/
def appendStringLoop : Nat → GoString → GoString
  | _, [] => []
  | 0, _ :: _ => []
  | fuel + 1, b :: rest =>
    if b.val < 0x80 then
      if htmlSafe b then b :: appendStringLoop fuel rest
      else escapeByte b ++ appendStringLoop fuel rest
    else if invalidRune (decodeRune (b :: rest)) then
      str "\\ufffd" ++ appendStringLoop fuel rest
    else if (decodeRune (b :: rest)).1 = 0x2028 ∨ (decodeRune (b :: rest)).1 = 0x2029 then
      str "\\u202" ++ [hexDigit ((decodeRune (b :: rest)).1 % 16)] ++
        appendStringLoop fuel ((b :: rest).drop (decodeRune (b :: rest)).2)
    else
      (b :: rest).take (decodeRune (b :: rest)).2 ++
        appendStringLoop fuel ((b :: rest).drop (decodeRune (b :: rest)).2)

/-- Function `appendString` of encoding/json: a Go string as a JSON string literal,
coerced to valid UTF-8. -/
def appendString (s : GoString) : GoString :=
  byte 0x22 :: appendStringLoop s.length s ++ [byte 0x22]

/-- The value of a hexadecimal digit, as in `getu4`. -/
def hexValue (c : Byte) : Option Nat :=
  if 0x30 ≤ c.val ∧ c.val ≤ 0x39 then some (c.val - 0x30)
  else if 0x61 ≤ c.val ∧ c.val ≤ 0x66 then some (c.val - 0x61 + 10)
  else if 0x41 ≤ c.val ∧ c.val ≤ 0x46 then some (c.val - 0x41 + 10)
  else none

/-- Function `getu4` of encoding/json on the text after the backslash and the `u`: the
value of the four hexadecimal digits and the text after them. -/
def getu4 (s : GoString) : Option (Nat × GoString) :=
  match s with
  | a :: b :: c :: d :: rest =>
    match hexValue a, hexValue b, hexValue c, hexValue d with
    | some a, some b, some c, some d => some (a * 4096 + b * 256 + c * 16 + d, rest)
    | _, _, _, _ => none
  | _ => none

/-- The second half of a surrogate pair: `getu4` on text that starts with a backslash
and a `u`. -/
def getu4Escaped (s : GoString) : Option (Nat × GoString) :=
  match s with
  | bs :: u :: rest => if bs.val = 0x5C ∧ u.val = 0x75 then getu4 rest else none
  | _ => none

/-- The byte denoted by a one-letter escape (the letter after the backslash), as the
scanner of encoding/json accepts them. -/
def plainEscape (e : Byte) : Option Byte :=
  if e.val = 0x22 ∨ e.val = 0x5C ∨ e.val = 0x2F then some e
  else if e.val = 0x62 then some (byte 0x08)
  else if e.val = 0x66 then some (byte 0x0C)
  else if e.val = 0x6E then some (byte 0x0A)
  else if e.val = 0x72 then some (byte 0x0D)
  else if e.val = 0x74 then some (byte 0x09)
  else none

/-- A JSON string literal after its opening quote (the scanner and `unquote` of
encoding/json): the Go string it denotes and the text after the closing quote.
Control characters and unknown escapes are rejected, invalid UTF-8 and unpaired
surrogates become U+FFFD. -/
def unquoteLoop : Nat → GoString → Option (GoString × GoString)
  | 0, _ => none
  | _, [] => none
  | fuel + 1, c :: rest =>
    if c.val = 0x22 then some ([], rest)
    else if c.val = 0x5C then
      match rest with
      | [] => none
      | e :: rest1 =>
        if e.val = 0x75 then
          match getu4 rest1 with
          | none => none
          | some (rr, rest2) =>
            if 0xD800 ≤ rr ∧ rr < 0xE000 then
              match getu4Escaped rest2 with
              | some (rr1, rest3) =>
                if rr < 0xDC00 ∧ 0xDC00 ≤ rr1 ∧ rr1 < 0xE000 then
                  (unquoteLoop fuel rest3).map fun out =>
                    (encodeRune ((rr - 0xD800) * 1024 + (rr1 - 0xDC00) + 0x10000) ++ out.1, out.2)
                else
                  (unquoteLoop fuel rest2).map fun out => (encodeRune RuneError ++ out.1, out.2)
              | none =>
                (unquoteLoop fuel rest2).map fun out => (encodeRune RuneError ++ out.1, out.2)
            else (unquoteLoop fuel rest2).map fun out => (encodeRune rr ++ out.1, out.2)
        else
          match plainEscape e with
          | none => none
          | some b => (unquoteLoop fuel rest1).map fun out => (b :: out.1, out.2)
    else if c.val < 0x20 then none
    else if c.val < 0x80 then (unquoteLoop fuel rest).map fun out => (c :: out.1, out.2)
    else if invalidRune (decodeRune (c :: rest)) then
      (unquoteLoop fuel rest).map fun out => (encodeRune RuneError ++ out.1, out.2)
    else
      (unquoteLoop fuel ((c :: rest).drop (decodeRune (c :: rest)).2)).map fun out =>
        ((c :: rest).take (decodeRune (c :: rest)).2 ++ out.1, out.2)

/-- Bytes skipped between JSON tokens: space, tab, line feed, carriage return. -/
def isSpace (c : Byte) : Bool := c.val = 0x20 ∨ c.val = 0x09 ∨ c.val = 0x0A ∨ c.val = 0x0D

/-- The text without its leading white space. -/
def skipSpace : GoString → GoString
  | [] => []
  | c :: rest => if isSpace c then skipSpace rest else c :: rest

/-- A JSON string value: the Go string and the text after the literal. -/
def parseString (s : GoString) : Option (GoString × GoString) :=
  match skipSpace s with
  | [] => none
  | c :: rest => if c.val = 0x22 then unquoteLoop (c :: rest).length rest else none

/-! ## encoding/json: values -/

/-- A run of decimal digits at the head of the text, added to `acc`; the text after it. -/
def parseDigits : GoString → Nat → Nat × GoString
  | [], acc => (acc, [])
  | c :: rest, acc => if isDigit c then parseDigits rest (acc * 10 + (c.val - 48)) else (acc, c :: rest)

/-- A JSON number decoded into a Go integer: an optional minus sign, then `0` or a run
of digits that does not start with `0`; a fraction or an exponent is an error. The range
check against the width of the Go type is left out. -/
def parseInt (s : GoString) : Option (Int × GoString) :=
  match skipSpace s with
  | [] => none
  | c :: rest =>
    let body := if c.val = 0x2D then rest else c :: rest
    match body with
    | [] => none
    | d :: rest1 =>
      if isDigit d then
        let num : Nat × GoString := if d.val = 0x30 then (0, rest1) else parseDigits (d :: rest1) 0
        match num.2 with
        | e :: _ =>
          if e.val = 0x2E ∨ e.val = 0x65 ∨ e.val = 0x45 then none
          else some (if c.val = 0x2D then -(num.1 : Int) else (num.1 : Int), num.2)
        | [] => some (if c.val = 0x2D then -(num.1 : Int) else (num.1 : Int), num.2)
      else none

/-- The text after the literal, when the text starts with it. -/
def expectLit (lit : GoString) (s : GoString) : Option GoString :=
  if lit.isPrefixOf s then some (s.drop lit.length) else none

/-- A JSON `true` or `false`. -/
def parseBool (s : GoString) : Option (Bool × GoString) :=
  match expectLit (str "true") (skipSpace s) with
  | some rest => some (true, rest)
  | none =>
    match expectLit (str "false") (skipSpace s) with
    | some rest => some (false, rest)
    | none => none

/-- A JSON `null`: the text after it. -/
def parseNull (s : GoString) : Option GoString := expectLit (str "null") (skipSpace s)

/-- A JSON string holding an RFC 3339 time (`Time.UnmarshalJSON`). -/
def parseTime (s : GoString) : Option (Time × GoString) :=
  match expect 0x22 (skipSpace s) with
  | none => none
  | some rest =>
    match parseRFC3339 rest with
    | none => none
    | some (t, rest) =>
      match expect 0x22 rest with
      | none => none
      | some rest => some (t, rest)

/-- The elements of a JSON array after the first one: a comma and an element, repeated,
up to the closing bracket. -/
def parseElements {α : Type} (elem : GoString → Option (α × GoString)) :
    Nat → GoString → Option (List α × GoString)
  | 0, _ => none
  | fuel + 1, s =>
    match skipSpace s with
    | [] => none
    | c :: rest =>
      if c.val = 0x5D then some ([], rest)
      else if c.val = 0x2C then
        match elem rest with
        | none => none
        | some (x, rest) => (parseElements elem fuel rest).map fun out => (x :: out.1, out.2)
      else none

/-- A JSON array decoded into a Go slice, element by element. -/
def parseArray {α : Type} (elem : GoString → Option (α × GoString)) (s : GoString) :
    Option (List α × GoString) :=
  match expect 0x5B (skipSpace s) with
  | none => none
  | some rest =>
    match expect 0x5D (skipSpace rest) with
    | some rest => some ([], rest)
    | none =>
      match elem rest with
      | none => none
      | some (x, rest) =>
        (parseElements elem rest.length rest).map fun out => (x :: out.1, out.2)

/-- The members of a JSON object, from the key of a member on: each value is stored by
`field` under its key, up to the closing brace. -/
def parseMembers {α : Type} (field : GoString → α → GoString → Option (α × GoString)) :
    Nat → α → GoString → Option (α × GoString)
  | 0, _, _ => none
  | fuel + 1, acc, s =>
    match parseString s with
    | none => none
    | some (key, rest) =>
      match expect 0x3A (skipSpace rest) with
      | none => none
      | some rest =>
        match field key acc rest with
        | none => none
        | some (acc, rest) =>
          match skipSpace rest with
          | [] => none
          | c :: rest =>
            if c.val = 0x7D then some (acc, rest)
            else if c.val = 0x2C then parseMembers field fuel acc rest
            else none

/-- A JSON object decoded into a Go struct that starts as `zero`. -/
def parseObject {α : Type} (field : GoString → α → GoString → Option (α × GoString))
    (zero : α) (s : GoString) : Option (α × GoString) :=
  match expect 0x7B (skipSpace s) with
  | none => none
  | some rest =>
    match expect 0x7D (skipSpace rest) with
    | some rest => some (zero, rest)
    | none => parseMembers field rest.length zero rest

/-! ## encoding/json: the records of package gatus -/

/-- The zero value of `time.Time`: January 1, year 1, 00:00:00 UTC. -/
def Time.zero : Time := ⟨1, 1, 1, 0, 0, 0, 0, 0, by decide⟩

/-- JSON `true` or `false`. -/
def encodeBool (b : Bool) : GoString := if b then str "true" else str "false"

/-- The elements of a JSON array, separated by commas. -/
def joinComma : List GoString → GoString
  | [] => []
  | [x] => x
  | x :: y :: rest => x ++ byte 0x2C :: joinComma (y :: rest)

/-- A member of a JSON object: the key as a string, a colon and the value. -/
def encodeMember (key : String) (value : GoString) : GoString :=
  appendString (str key) ++ byte 0x3A :: value

/-- A JSON array of the given elements. -/
def encodeArray (elements : List GoString) : GoString :=
  byte 0x5B :: (joinComma elements ++ [byte 0x5D])

/-- A JSON object of the given members. -/
def encodeObject (members : List GoString) : GoString :=
  byte 0x7B :: (joinComma members ++ [byte 0x7D])

/-- A `ConditionResult` as JSON, by the tags of gatus.go. -/
def encodeConditionResult (c : ConditionResult) : GoString :=
  encodeObject
    [encodeMember "condition" (appendString c.Condition),
     encodeMember "success" (encodeBool c.Success)]

/-- A `Result` as JSON, by the tags of gatus.go: `hostname` and `errors` are left out
when empty (`omitempty`), a `ConditionResults` without entries is the nil slice and is
written `null`; `none` when the timestamp cannot be marshalled. -/
def encodeResult (r : Result) : Option GoString :=
  match formatRFC3339 r.Timestamp with
  | none => none
  | some timestamp =>
    some (encodeObject
      ([encodeMember "status" (formatInt r.HTTPStatus)] ++
        (if r.Hostname = [] then [] else [encodeMember "hostname" (appendString r.Hostname)]) ++
        [encodeMember "duration" (formatInt r.Duration)] ++
        (if r.Errors = [] then []
         else [encodeMember "errors" (encodeArray (r.Errors.map appendString))]) ++
        [encodeMember "conditionResults"
           (if r.ConditionResults = [] then str "null"
            else encodeArray (r.ConditionResults.map encodeConditionResult)),
         encodeMember "success" (encodeBool r.Success),
         encodeMember "timestamp" (byte 0x22 :: (timestamp ++ [byte 0x22]))]))

/-- All the records as JSON, `none` as soon as one cannot be marshalled. -/
def encodeAll : List Result → Option (List GoString)
  | [] => some []
  | r :: rest =>
    match encodeResult r, encodeAll rest with
    | some x, some xs => some (x :: xs)
    | _, _ => none

/-- The bytes `json.NewEncoder(w).Encode(results)` writes for a non-nil slice of
records: the array and a line feed. -/
def encodeResults (results : List Result) : Option GoString :=
  match encodeAll results with
  | none => none
  | some xs => some (encodeArray xs ++ [byte 0x0A])

/-- The member of a `ConditionResult` object with the given key, stored into `acc`. A
`null` leaves the field as it is; an unknown key is rejected (Go skips its value). -/
def conditionResultField (key : GoString) (acc : ConditionResult) (s : GoString) :
    Option (ConditionResult × GoString) :=
  if key = str "condition" then
    match parseNull s with
    | some rest => some (acc, rest)
    | none => (parseString s).map fun out => ({ acc with Condition := out.1 }, out.2)
  else if key = str "success" then
    match parseNull s with
    | some rest => some (acc, rest)
    | none => (parseBool s).map fun out => ({ acc with Success := out.1 }, out.2)
  else none

/-- A JSON object decoded into a `ConditionResult`. -/
def parseConditionResult (s : GoString) : Option (ConditionResult × GoString) :=
  parseObject conditionResultField { Condition := [], Success := false } s

/-- The member of a `Result` object with the given key, stored into `acc`. A `null`
leaves the field as it is (a slice becomes nil); an unknown key is rejected (Go skips
its value). -/
def resultField (key : GoString) (acc : Result) (s : GoString) : Option (Result × GoString) :=
  if key = str "status" then
    match parseNull s with
    | some rest => some (acc, rest)
    | none => (parseInt s).map fun out => ({ acc with HTTPStatus := out.1 }, out.2)
  else if key = str "hostname" then
    match parseNull s with
    | some rest => some (acc, rest)
    | none => (parseString s).map fun out => ({ acc with Hostname := out.1 }, out.2)
  else if key = str "duration" then
    match parseNull s with
    | some rest => some (acc, rest)
    | none => (parseInt s).map fun out => ({ acc with Duration := out.1 }, out.2)
  else if key = str "errors" then
    match parseNull s with
    | some rest => some ({ acc with Errors := [] }, rest)
    | none => (parseArray parseString s).map fun out => ({ acc with Errors := out.1 }, out.2)
  else if key = str "conditionResults" then
    match parseNull s with
    | some rest => some ({ acc with ConditionResults := [] }, rest)
    | none =>
      (parseArray parseConditionResult s).map fun out =>
        ({ acc with ConditionResults := out.1 }, out.2)
  else if key = str "success" then
    match parseNull s with
    | some rest => some (acc, rest)
    | none => (parseBool s).map fun out => ({ acc with Success := out.1 }, out.2)
  else if key = str "timestamp" then
    match parseNull s with
    | some rest => some (acc, rest)
    | none => (parseTime s).map fun out => ({ acc with Timestamp := out.1 }, out.2)
  else none

/-- A JSON object decoded into a fresh `Result`. -/
def parseResult (s : GoString) : Option (Result × GoString) :=
  parseObject resultField
    { HTTPStatus := 0, Hostname := [], Duration := 0, Errors := [], ConditionResults := [],
      Success := false, Timestamp := Time.zero } s

/-- The first JSON value of the text decoded into a slice of records, as
`json.NewDecoder(r).Decode(&results)` does: `null` (followed by white space or the end
of the text) or an array of objects; what follows the array is not read. -/
def decodeResults (s : GoString) : Option (List Result) :=
  match parseNull s with
  | some rest =>
    match rest with
    | [] => some []
    | c :: _ => if isSpace c then some [] else none
  | none => (parseArray parseResult s).map fun out => out.1

/-- The model of encoding/json for the history of the store. It agrees with Go on the
documents Go writes for a history. Where it is narrower than Go it fails: a `null` array
element (a nil pointer), a member with an unknown key or a key in another letter case,
and a time that only the lenient fallback of `Time.UnmarshalJSON` accepts. It is wider
than Go in one place: a number outside the range of the Go integer type is accepted. -/
def goJSON : Codec where
  encode results :=
    match encodeResults results with
    | some data => .ok data
    | none => .error (.errorString (str "json: error calling MarshalJSON for type time.Time"))
  decode content :=
    match decodeResults content with
    | some results => .ok results
    | none => .error (.errorString (str "invalid character"))

/-- Whether every string of the record is valid UTF-8. -/
def Result.validUTF8 (r : Result) : Bool :=
  utf8Valid r.Hostname && r.Errors.all utf8Valid &&
    r.ConditionResults.all (fun c => utf8Valid c.Condition)

/-- What may follow a value inside an array or an object: a comma or a closing bracket
or brace. -/
def closes (tail : GoString) : Prop :=
  ∃ c rest, tail = c :: rest ∧ (c.val = 0x2C ∨ c.val = 0x5D ∨ c.val = 0x7D)

/-! ## Concrete inputs used in the examples -/

/-- The Unix epoch in UTC. -/
def epoch : Time := ⟨1970, 1, 1, 0, 0, 0, 0, 0, by decide⟩

/-- A pool in nominal state, with the given name and error count. -/
def poolNamed (name : String) (errors : Int) : Pool :=
  { ID := 1, Name := str name, GUID := [], Path := [], Status := PoolStatusOnline,
    Errors := errors, Healthy := true, Warning := false, StatusCode := [], StatusDetail := [] }

/-- A `GetPools` environment in which the appliance answers with the given status and
body and the body decodes to the given pools. -/
def answering (status : Int) (body : String) (pools : List Pool) : PoolsEnv :=
  { newRequest := none, transport := .response status (str body),
    unmarshal := fun _ => .ok pools }

/-- The URL of the appliance in the examples. -/
def nasURL : URL := { Host := str "nas.example.com" }

/-- The path of the data file in the examples. -/
def dataFile : GoString := str "/data/results.json"

/-- A file system without any file. -/
def noFiles : FileSystem := fun _ => none

/-- The record of a probe that the appliance answered with 503 and the body "busy". -/
def failedProbe : Result :=
  buildResult (GetPools (answering 503 "busy" [])) 123000000
    ⟨2024, 1, 1, 0, 1, 0, 0, 0, by decide⟩ nasURL

/-- The record of a probe that found the single healthy pool "tank". -/
def healthyProbe : Result :=
  buildResult (GetPools (answering 200 "[...]" [poolNamed "tank" 0])) 123000000
    ⟨2024, 1, 1, 0, 2, 0, 0, 0, by decide⟩ nasURL

/-- The record of a probe that the appliance answered with 500 and a body of the single
byte 0xFF, which is not valid UTF-8. -/
def garbledProbe : Result :=
  buildResult
    (GetPools { newRequest := none, transport := .response 500 [byte 0xFF],
                unmarshal := fun _ => .ok [] })
    123000000 ⟨2024, 1, 1, 0, 3, 0, 0, 0, by decide⟩ nasURL

/-- A host address that `url.Parse` rejects (the bracket of the IPv6 literal is not
closed). -/
def malformedHost : GoString := str "http://[::1"

/-- What `url.Parse` answers for `malformedHost`. -/
def urlParseMalformed : GoString → Except GoError URL :=
  fun _ => .error (.errorString (str "parse \"http://[::1\": missing ']' in host"))

/-- The world of `GetPools` for a client made with `malformedHost`: `http.NewRequest`
rejects the URL built from the host, so no request is sent. -/
def malformedHostEnv : PoolsEnv :=
  { newRequest :=
      some (.errorString (str "parse \"http://[::1/api/v2.0/pool\": missing ']' in host"))
    transport := .doFails (.errorString [])
    unmarshal := fun _ => .ok [] }

/-- The first record of `twoRecords`. -/
def firstRecord : Result :=
  { HTTPStatus := 0, Hostname := [], Duration := 1, Errors := [], ConditionResults := [],
    Success := true, Timestamp := ⟨2024, 1, 1, 0, 1, 0, 0, 0, by decide⟩ }

/-- The second record of `twoRecords`. -/
def secondRecord : Result :=
  { HTTPStatus := 0, Hostname := [], Duration := 2, Errors := [], ConditionResults := [],
    Success := true, Timestamp := ⟨2024, 1, 1, 0, 2, 0, 0, 0, by decide⟩ }

/-- A machine whose data file holds a history of two records. -/
def twoRecords : FileSystem :=
  noFiles.set dataFile
    (str ("[\x7b\"status\":0,\"duration\":1,\"conditionResults\":null," ++
      "\"success\":true,\"timestamp\":\"2024-01-01T00:01:00Z\"\x7d," ++
      "\x7b\"status\":0,\"duration\":2,\"conditionResults\":null," ++
      "\"success\":true,\"timestamp\":\"2024-01-01T00:02:00Z\"\x7d]\n"))

/-! # Theorems -/

set_option maxRecDepth 100000

/-! ## Lemmas on the UTF-8 and JSON model -/

theorem byte_val_of_lt {n : Nat} (h : n < 256) : (byte n).val = n := by
  simp [byte, Nat.mod_eq_of_lt h]

theorem byte_eq_of_val {n : Nat} {b : Byte} (h : n = b.val) : byte n = b := by
  apply Fin.ext
  have := b.isLt
  simp [byte]
  omega

theorem acceptLo_cases (p0 : Byte) :
    (p0.val = 0xE0 ∧ acceptLo p0 = 0xA0) ∨ (p0.val = 0xF0 ∧ acceptLo p0 = 0x90) ∨
      (p0.val ≠ 0xE0 ∧ p0.val ≠ 0xF0 ∧ acceptLo p0 = 0x80) := by
  unfold acceptLo
  split_ifs <;> simp_all

theorem acceptHi_cases (p0 : Byte) :
    (p0.val = 0xED ∧ acceptHi p0 = 0x9F) ∨ (p0.val = 0xF4 ∧ acceptHi p0 = 0x8F) ∨
      (p0.val ≠ 0xED ∧ p0.val ≠ 0xF4 ∧ acceptHi p0 = 0xBF) := by
  unfold acceptHi
  split_ifs <;> simp_all

/-- A valid multi-byte sequence at the head of the string. -/
theorem decodeRune_valid (p0 : Byte) (rest : GoString) (h80 : 0x80 ≤ p0.val)
    (hv : invalidRune (decodeRune (p0 :: rest)) = false) :
    ∃ (seq tail : GoString) (r : Nat), p0 :: rest = seq ++ tail ∧ 2 ≤ seq.length ∧
      (∀ tail', decodeRune (seq ++ tail') = (r, seq.length)) ∧ encodeRune r = seq ∧
      (∀ b ∈ seq, 0x80 ≤ b.val) ∧ 0x80 ≤ r := by
  have hp0 := p0.isLt
  have hlo := acceptLo_cases p0
  have hhi := acceptHi_cases p0
  have h1 : ¬ p0.val < 0x80 := by omega
  unfold decodeRune at hv
  simp only [h1, if_false] at hv
  by_cases hxx : p0.val < 0xC2 ∨ 0xF4 < p0.val
  · simp [hxx, invalidRune] at hv
  simp only [hxx, if_false] at hv
  cases rest with
  | nil => simp [invalidRune] at hv
  | cons b1 rest1 =>
    have hb1 := b1.isLt
    simp only at hv
    by_cases hr : b1.val < acceptLo p0 ∨ acceptHi p0 < b1.val
    · simp only [hr, if_true] at hv
      split at hv
      · simp [invalidRune] at hv
      · split at hv
        · simp [invalidRune] at hv
        · split at hv
          · simp [invalidRune] at hv
          · split at hv
            · simp [invalidRune] at hv
            · simp [invalidRune] at hv
    simp only [hr, if_false] at hv
    by_cases h2 : p0.val < 0xE0
    · refine ⟨[p0, b1], rest1, p0.val % 32 * 64 + b1.val % 64, rfl, by simp, ?_, ?_, ?_, ?_⟩
      · intro tail'
        simp [decodeRune, h1, hxx, h2, hr]
      · unfold encodeRune
        rw [if_neg (by omega), if_pos (by omega)]
        congr 1
        · exact byte_eq_of_val (by omega)
        · congr 1
          exact byte_eq_of_val (by omega)
      · intro b hb
        simp only [List.mem_cons, List.mem_singleton, List.not_mem_nil, or_false] at hb
        rcases hb with rfl | rfl <;> omega
      · omega
    · simp only [h2, if_false] at hv
      cases rest1 with
      | nil => simp [invalidRune] at hv
      | cons b2 rest2 =>
        have hb2 := b2.isLt
        simp only at hv
        by_cases hr2 : b2.val < 0x80 ∨ 0xBF < b2.val
        · simp only [hr2, if_true] at hv
          split at hv
          · simp [invalidRune] at hv
          · split at hv
            · simp [invalidRune] at hv
            · simp [invalidRune] at hv
        simp only [hr2, if_false] at hv
        by_cases h3 : p0.val < 0xF0
        · refine ⟨[p0, b1, b2], rest2, p0.val % 16 * 4096 + b1.val % 64 * 64 + b2.val % 64, rfl,
            by simp, ?_, ?_, ?_, ?_⟩
          · intro tail'
            simp [decodeRune, h1, hxx, h2, h3, hr, hr2]
          · unfold encodeRune
            rw [if_neg (by omega), if_neg (by omega), if_neg (by omega), if_pos (by omega)]
            congr 1
            · exact byte_eq_of_val (by omega)
            · congr 1
              · exact byte_eq_of_val (by omega)
              · congr 1
                exact byte_eq_of_val (by omega)
          · intro b hb
            simp only [List.mem_cons, List.mem_singleton, List.not_mem_nil, or_false] at hb
            rcases hb with rfl | rfl | rfl <;> omega
          · omega
        · simp only [h3, if_false] at hv
          cases rest2 with
          | nil => simp [invalidRune] at hv
          | cons b3 rest3 =>
            have hb3 := b3.isLt
            simp only at hv
            by_cases hr3 : b3.val < 0x80 ∨ 0xBF < b3.val
            · simp [hr3, invalidRune] at hv
            refine ⟨[p0, b1, b2, b3], rest3,
              p0.val % 8 * 262144 + b1.val % 64 * 4096 + b2.val % 64 * 64 + b3.val % 64, rfl,
              by simp, ?_, ?_, ?_, ?_⟩
            · intro tail'
              simp [decodeRune, h1, hxx, h2, h3, hr, hr2, hr3]
            · unfold encodeRune
              rw [if_neg (by omega), if_neg (by omega), if_neg (by omega), if_neg (by omega)]
              congr 1
              · exact byte_eq_of_val (by omega)
              · congr 1
                · exact byte_eq_of_val (by omega)
                · congr 1
                  · exact byte_eq_of_val (by omega)
                  · congr 1
                    exact byte_eq_of_val (by omega)
            · intro b hb
              simp only [List.mem_cons, List.mem_singleton, List.not_mem_nil, or_false] at hb
              rcases hb with rfl | rfl | rfl | rfl <;> omega
            · omega

theorem hexValue_hexDigit (n : Nat) (h : n < 16) : hexValue (hexDigit n) = some n := by
  interval_cases n <;> decide

theorem getu4_digits (a b c d : Nat) (ha : a < 16) (hb : b < 16) (hc : c < 16) (hd : d < 16)
    (rest : GoString) :
    getu4 (hexDigit a :: hexDigit b :: hexDigit c :: hexDigit d :: rest) =
      some (a * 4096 + b * 256 + c * 16 + d, rest) := by
  simp [getu4, hexValue_hexDigit, *]

@[simp] theorem byte_val (n : Nat) : (byte n).val = n % 256 := rfl

theorem unquoteLoop_plain (n : Nat) (c : Byte) (rest : GoString) (h1 : 0x20 ≤ c.val)
    (h2 : c.val < 0x80) (h3 : c.val ≠ 0x22) (h4 : c.val ≠ 0x5C) :
    unquoteLoop (n + 1) (c :: rest) = (unquoteLoop n rest).map fun out => (c :: out.1, out.2) := by
  simp only [unquoteLoop]
  rw [if_neg h3, if_neg h4, if_neg (by omega), if_pos h2]

theorem unquoteLoop_u (n : Nat) (r : Nat) (rest rest2 : GoString) (h : getu4 rest = some (r, rest2))
    (hs : ¬ (0xD800 ≤ r ∧ r < 0xE000)) :
    unquoteLoop (n + 1) (byte 0x5C :: byte 0x75 :: rest) =
      (unquoteLoop n rest2).map fun out => (encodeRune r ++ out.1, out.2) := by
  simp only [unquoteLoop, byte_val, h, hs]
  simp

theorem unquoteLoop_escape (n : Nat) (e b : Byte) (rest : GoString) (h : plainEscape e = some b)
    (hu : e.val ≠ 0x75) :
    unquoteLoop (n + 1) (byte 0x5C :: e :: rest) =
      (unquoteLoop n rest).map fun out => (b :: out.1, out.2) := by
  simp only [unquoteLoop, byte_val, h, hu]
  simp

theorem unquoteLoop_escapeByte (n : Nat) (b : Byte) (rest : GoString) (h1 : b.val < 0x80) :
    unquoteLoop (n + 1) (escapeByte b ++ rest) =
      (unquoteLoop n rest).map fun out => (b :: out.1, out.2) := by
  unfold escapeByte
  split_ifs with c1 c2 c3 c4 c5 c6
  · exact unquoteLoop_escape n b b rest (by
      unfold plainEscape
      rw [if_pos (by omega)]) (by omega)
  · rw [← byte_eq_of_val c2.symm]; exact unquoteLoop_escape n _ _ rest (by decide) (by decide)
  · rw [← byte_eq_of_val c3.symm]; exact unquoteLoop_escape n _ _ rest (by decide) (by decide)
  · rw [← byte_eq_of_val c4.symm]; exact unquoteLoop_escape n _ _ rest (by decide) (by decide)
  · rw [← byte_eq_of_val c5.symm]; exact unquoteLoop_escape n _ _ rest (by decide) (by decide)
  · rw [← byte_eq_of_val c6.symm]; exact unquoteLoop_escape n _ _ rest (by decide) (by decide)
  · have h0 : byte 0x30 = hexDigit 0 := rfl
    simp only [List.cons_append, List.nil_append]
    rw [h0, unquoteLoop_u n b.val _ rest
      (by rw [getu4_digits 0 0 (b.val / 16) (b.val % 16) (by omega) (by omega) (by omega)
            (by omega)]; congr 2; omega)
      (by omega)]
    have : encodeRune b.val = [b] := by
      unfold encodeRune
      rw [if_pos h1]
      congr 1
      exact byte_eq_of_val rfl
    simp [this]

theorem str_u202 : str "\\u202" = [byte 0x5C, byte 0x75, hexDigit 2, hexDigit 0, hexDigit 2] := by
  decide

theorem str_ufffd : str "\\ufffd" =
    [byte 0x5C, byte 0x75, hexDigit 15, hexDigit 15, hexDigit 15, hexDigit 13] := by
  decide

theorem appendStringLoop_safe (fuel : Nat) (b : Byte) (rest : GoString) (h : b.val < 0x80)
    (hs : htmlSafe b = true) :
    appendStringLoop (fuel + 1) (b :: rest) = b :: appendStringLoop fuel rest := by
  simp only [appendStringLoop, h, hs, if_true]

theorem appendStringLoop_escape (fuel : Nat) (b : Byte) (rest : GoString) (h : b.val < 0x80)
    (hs : htmlSafe b = false) :
    appendStringLoop (fuel + 1) (b :: rest) = escapeByte b ++ appendStringLoop fuel rest := by
  simp only [appendStringLoop, h, hs, if_true, Bool.false_eq_true, if_false]

theorem appendStringLoop_multi (fuel : Nat) (b : Byte) (rest : GoString) (h : ¬ b.val < 0x80)
    (r n : Nat) (hd : decodeRune (b :: rest) = (r, n)) (hinv : invalidRune (r, n) = false) :
    appendStringLoop (fuel + 1) (b :: rest) =
      if r = 0x2028 ∨ r = 0x2029 then
        str "\\u202" ++ [hexDigit (r % 16)] ++ appendStringLoop fuel ((b :: rest).drop n)
      else (b :: rest).take n ++ appendStringLoop fuel ((b :: rest).drop n) := by
  simp only [appendStringLoop, h, hd, hinv, if_false, Bool.false_eq_true]

theorem escapeByte_length_pos (b : Byte) : 0 < (escapeByte b).length := by
  unfold escapeByte
  split_ifs <;> simp

/-- Reading back what `appendString` wrote for a valid UTF-8 string. -/
theorem unquoteLoop_appendStringLoop (fuel : Nat) :
    ∀ (s : GoString), s.length ≤ fuel → utf8ValidLoop fuel s = true →
      ∀ (tail : GoString) (fuel' : Nat), (appendStringLoop fuel s).length < fuel' →
        unquoteLoop fuel' (appendStringLoop fuel s ++ byte 0x22 :: tail) = some (s, tail) := by
  induction fuel with
  | zero =>
    intro s hlen _ tail fuel' hf
    cases s with
    | nil =>
      cases fuel' with
      | zero => simp at hf
      | succ n => simp [appendStringLoop, unquoteLoop]
    | cons b rest => simp at hlen
  | succ fuel ih =>
    intro s hlen hvalid tail fuel' hf
    cases s with
    | nil =>
      cases fuel' with
      | zero => simp at hf
      | succ n => simp [appendStringLoop, unquoteLoop]
    | cons b rest =>
      cases fuel' with
      | zero => simp at hf
      | succ n =>
        have hb := b.isLt
        simp only [utf8ValidLoop] at hvalid
        by_cases h80 : b.val < 0x80
        · have hd : decodeRune (b :: rest) = (b.val, 1) := by simp [decodeRune, h80]
          have hinv : invalidRune (decodeRune (b :: rest)) = false := by
            simp [hd, invalidRune, RuneError]; omega
          rw [hinv, hd] at hvalid
          simp only [Bool.false_eq_true, if_false, List.drop_succ_cons, List.drop_zero] at hvalid
          have hrest : rest.length ≤ fuel := by simpa using hlen
          by_cases hsafe : htmlSafe b = true
          · rw [appendStringLoop_safe fuel b rest h80 hsafe] at hf ⊢
            have hs := hsafe
            simp only [htmlSafe, decide_eq_true_eq] at hs
            rw [List.cons_append, unquoteLoop_plain n b _ hs.1 hs.2.1 hs.2.2.1 hs.2.2.2.2.2.2,
              ih rest hrest hvalid tail n (by simpa using hf)]
            rfl
          · rw [appendStringLoop_escape fuel b rest h80 (by simpa using hsafe)] at hf ⊢
            rw [List.append_assoc, unquoteLoop_escapeByte n b _ h80,
              ih rest hrest hvalid tail n (by
                have := escapeByte_length_pos b
                simp only [List.length_append] at hf
                omega)]
            rfl
        · by_cases hinv : invalidRune (decodeRune (b :: rest)) = true
          · simp [hinv] at hvalid
          have hinv' : invalidRune (decodeRune (b :: rest)) = false := by simpa using hinv
          obtain ⟨seq, tail0, r, hsplit, hseq, hdec, henc, hhigh, hr80⟩ :=
            decodeRune_valid b rest (by omega) hinv'
          have hd : decodeRune (b :: rest) = (r, seq.length) := by rw [hsplit]; exact hdec tail0
          have hinv2 : invalidRune (r, seq.length) = false := by rw [← hd]; exact hinv'
          rw [appendStringLoop_multi fuel b rest h80 r seq.length hd hinv2] at hf ⊢
          rw [hinv', hd] at hvalid
          simp only [Bool.false_eq_true, if_false] at hvalid
          rw [hsplit] at hvalid hf ⊢
          rw [List.drop_left] at hvalid hf ⊢
          rw [List.take_left] at hf ⊢
          have hlen0 : tail0.length ≤ fuel := by
            have := congrArg List.length hsplit
            simp only [List.length_cons, List.length_append] at this hlen
            omega
          by_cases h2028 : r = 0x2028 ∨ r = 0x2029
          · rw [if_pos h2028] at hf ⊢
            rw [str_u202] at hf ⊢
            simp only [List.cons_append, List.nil_append, List.append_assoc, List.length_cons,
              List.length_append] at hf ⊢
            rw [unquoteLoop_u n r _ _ (by
                rw [getu4_digits 2 0 2 (r % 16) (by omega) (by omega) (by omega) (by omega)]
                congr 2
                rcases h2028 with h | h <;> subst h <;> rfl)
              (by rcases h2028 with h | h <;> subst h <;> decide),
              ih tail0 hlen0 hvalid tail n (by omega), henc]
            rfl
          · rw [if_neg h2028] at hf ⊢
            obtain ⟨c0, seq', rfl⟩ : ∃ c0 seq', seq = c0 :: seq' := by
              cases seq with
              | nil => simp at hseq
              | cons c0 seq' => exact ⟨c0, seq', rfl⟩
            have hc0 := hhigh c0 (by simp)
            have hd' := hdec (appendStringLoop fuel tail0 ++ byte 0x22 :: tail)
            simp only [List.cons_append, List.append_assoc] at hd' ⊢
            simp only [unquoteLoop]
            rw [if_neg (by omega), if_neg (by omega), if_neg (by omega), if_neg (by omega)]
            rw [hd', hinv2]
            simp only [Bool.false_eq_true, if_false]
            have e1 : List.drop (c0 :: seq').length
                (c0 :: (seq' ++ (appendStringLoop fuel tail0 ++ byte 0x22 :: tail))) =
                appendStringLoop fuel tail0 ++ byte 0x22 :: tail := by
              rw [← List.cons_append, List.drop_left]
            have e2 : List.take (c0 :: seq').length
                (c0 :: (seq' ++ (appendStringLoop fuel tail0 ++ byte 0x22 :: tail))) =
                c0 :: seq' := by
              rw [← List.cons_append, List.take_left]
            rw [e1, e2, ih tail0 hlen0 hvalid tail n (by
                simp only [List.length_append, List.length_cons] at hf
                omega)]
            rfl

theorem skipSpace_cons (c : Byte) (rest : GoString) (h : isSpace c = false) :
    skipSpace (c :: rest) = c :: rest := by
  simp [skipSpace, h]

theorem appendString_eq (s : GoString) :
    appendString s = byte 0x22 :: (appendStringLoop s.length s ++ [byte 0x22]) := rfl

/-- Reading back a string value. -/
theorem parseString_appendString (s tail : GoString) (h : utf8Valid s = true) :
    parseString (appendString s ++ tail) = some (s, tail) := by
  unfold parseString
  rw [appendString_eq, List.cons_append, skipSpace_cons _ _ (by decide)]
  simp only [byte_val, Nat.reduceMod, if_true, List.append_assoc, List.singleton_append]
  exact unquoteLoop_appendStringLoop s.length s le_rfl h tail _ (by simp; omega)

theorem digitsRev_isDigit (fuel : Nat) : ∀ n, ∀ c ∈ digitsRev fuel n, isDigit c = true := by
  induction fuel with
  | zero => intro n c hc; simp [digitsRev] at hc
  | succ fuel ih =>
    intro n c hc
    unfold digitsRev at hc
    split_ifs at hc with h
    · simp only [List.mem_singleton] at hc
      subst hc
      simp [isDigit]
      omega
    · simp only [List.mem_cons] at hc
      rcases hc with rfl | hc
      · simp [isDigit]
        omega
      · exact ih _ c hc

theorem digitsRev_value (fuel : Nat) : ∀ n, n < fuel →
    (digitsRev fuel n).foldr (fun c acc => acc * 10 + (c.val - 48)) 0 = n := by
  induction fuel with
  | zero => intro n h; omega
  | succ fuel ih =>
    intro n h
    unfold digitsRev
    split_ifs with h10
    · simp; omega
    · simp only [List.foldr_cons, byte_val]
      rw [ih (n / 10) (by omega)]
      omega

theorem parseDigits_append (ds : GoString) (hd : ∀ c ∈ ds, isDigit c = true) :
    ∀ (tail : GoString) (acc : Nat),
      parseDigits (ds ++ tail) acc =
        parseDigits tail (ds.foldl (fun acc c => acc * 10 + (c.val - 48)) acc) := by
  induction ds with
  | nil => intro tail acc; rfl
  | cons d ds ih =>
    intro tail acc
    simp only [List.cons_append, parseDigits, hd d (by simp), if_true, List.foldl_cons]
    exact ih (fun c hc => hd c (by simp [hc])) tail _

theorem parseDigits_stop (c : Byte) (rest : GoString) (acc : Nat) (h : isDigit c = false) :
    parseDigits (c :: rest) acc = (acc, c :: rest) := by
  simp [parseDigits, h]

theorem parseDigits_formatNat (n : Nat) (c : Byte) (rest : GoString) (h : isDigit c = false) :
    parseDigits (formatNat n ++ c :: rest) 0 = (n, c :: rest) := by
  unfold formatNat
  rw [parseDigits_append _ (by
    intro d hd
    exact digitsRev_isDigit _ _ d (List.mem_reverse.mp hd)), parseDigits_stop c rest _ h,
    List.foldl_reverse, digitsRev_value _ _ (by omega)]

theorem digitsRev_last (fuel : Nat) : ∀ n, n < fuel →
    ∃ init m, digitsRev fuel n = init ++ [byte (48 + m)] ∧ m < 10 ∧ (m = 0 → n = 0 ∧ init = []) := by
  induction fuel with
  | zero => intro n h; omega
  | succ fuel ih =>
    intro n h
    unfold digitsRev
    split_ifs with h10
    · exact ⟨[], n, rfl, h10, fun h0 => ⟨h0, rfl⟩⟩
    · obtain ⟨init, m, hd, hm, h0⟩ := ih (n / 10) (by omega)
      refine ⟨byte (48 + n % 10) :: init, m, by rw [hd]; rfl, hm, ?_⟩
      intro hm0
      have := (h0 hm0).1
      omega

theorem formatNat_cons (n : Nat) : ∃ d ds, formatNat n = d :: ds ∧ isDigit d = true ∧
    (d.val = 0x30 → n = 0 ∧ ds = []) := by
  obtain ⟨init, m, hd, hm, h0⟩ := digitsRev_last (n + 1) n (by omega)
  refine ⟨byte (48 + m), init.reverse, by simp [formatNat, hd], ?_, ?_⟩
  · simp [isDigit]; omega
  · intro h
    simp only [byte_val] at h
    have hm0 : m = 0 := by omega
    exact ⟨(h0 hm0).1, by rw [(h0 hm0).2]; rfl⟩

theorem parseInt_nat (n : Nat) (tail : GoString) (h : closes tail) :
    parseInt (formatNat n ++ tail) = some ((n : Int), tail) ∧
    parseInt (byte 0x2D :: (formatNat n ++ tail)) = some (-(n : Int), tail) := by
  obtain ⟨c, rest, rfl, hc⟩ := h
  obtain ⟨d, ds, hf, hd, h0⟩ := formatNat_cons n
  have hdig : isDigit c = false := by
    simp [isDigit]; rcases hc with hc | hc | hc <;> omega
  have hnum : (if d.val = 0x30 then ((0 : Nat), ds ++ c :: rest)
      else parseDigits (d :: (ds ++ c :: rest)) 0) = (n, c :: rest) := by
    split_ifs with hz
    · obtain ⟨rfl, rfl⟩ := h0 hz
      rfl
    · rw [← List.cons_append, ← hf]
      exact parseDigits_formatNat n c rest hdig
  have hdsp : isSpace d = false := by
    simp only [isDigit, decide_eq_true_eq] at hd
    simp [isSpace]; omega
  have hdm : ¬ d.val = 0x2D := by
    simp only [isDigit, decide_eq_true_eq] at hd
    omega
  have hce : ¬ (c.val = 0x2E ∨ c.val = 0x65 ∨ c.val = 0x45) := by
    rcases hc with hc | hc | hc <;> omega
  constructor
  · unfold parseInt
    rw [hf, List.cons_append, skipSpace_cons _ _ hdsp]
    simp only [hdm, if_false, hd, if_true, hnum, hce]
  · unfold parseInt
    rw [hf, List.cons_append, skipSpace_cons _ _ (by decide)]
    simp only [byte_val, Nat.reduceMod, if_true, hd, hnum, hce, if_false]

/-- Reading back an integer value. -/
theorem parseInt_formatInt (i : Int) (tail : GoString) (h : closes tail) :
    parseInt (formatInt i ++ tail) = some (i, tail) := by
  unfold formatInt
  split_ifs with hneg
  · rw [List.cons_append, (parseInt_nat i.natAbs tail h).2]
    congr 2
    omega
  · rw [(parseInt_nat i.natAbs tail h).1]
    congr 2
    omega

theorem expectLit_append (lit tail : GoString) : expectLit lit (lit ++ tail) = some tail := by
  simp [expectLit]

/-- Reading back a boolean value. -/
theorem parseBool_encodeBool (b : Bool) (tail : GoString) :
    parseBool (encodeBool b ++ tail) = some (b, tail) := by
  have ht : str "true" = [byte 0x74, byte 0x72, byte 0x75, byte 0x65] := by decide
  have hf : str "false" = [byte 0x66, byte 0x61, byte 0x6C, byte 0x73, byte 0x65] := by decide
  cases b
  · simp only [encodeBool, parseBool, Bool.false_eq_true, if_false]
    rw [hf, ht]
    simp only [List.cons_append, List.nil_append]
    rw [skipSpace_cons _ _ (by decide)]
    simp [expectLit, List.isPrefixOf, byte]
  · simp only [encodeBool, parseBool, if_true]
    rw [ht]
    simp only [List.cons_append, List.nil_append]
    rw [skipSpace_cons _ _ (by decide)]
    simp [expectLit, List.isPrefixOf]

theorem parseNull_none (c : Byte) (rest : GoString) (hs : isSpace c = false)
    (hn : c.val ≠ 0x6E) : parseNull (c :: rest) = none := by
  have hn' : str "null" = [byte 0x6E, byte 0x75, byte 0x6C, byte 0x6C] := by decide
  unfold parseNull
  rw [skipSpace_cons _ _ hs, hn']
  simp only [expectLit, List.isPrefixOf]
  have : (byte 0x6E == c) = false := by
    simp only [beq_eq_false_iff_ne, ne_eq]
    intro h
    rw [← h] at hn
    exact hn rfl
  simp [this]

theorem parse2_pad2 (n : Nat) (h : n < 100) (rest : GoString) :
    parse2 (pad2 n ++ rest) = some (n, rest) := by
  simp only [pad2, List.cons_append, List.nil_append, parse2, isDigit, byte_val]
  rw [if_pos (by simp; omega)]
  congr 2
  omega

theorem expect_byte (c : Nat) (h : c < 256) (rest : GoString) :
    expect c (byte c :: rest) = some rest := by
  simp [expect, Nat.mod_eq_of_lt h]

theorem parseFrac_fracDigits (width : Nat) : ∀ (n : Nat), n < 10 ^ width →
    ∀ (c : Byte) (rest : GoString), isDigit c = false →
      parseFrac width (fracDigits width n ++ c :: rest) = (n, c :: rest) := by
  induction width with
  | zero =>
    intro n hn c rest hc
    simp at hn
    subst hn
    simp [fracDigits, parseFrac, hc]
  | succ width ih =>
    intro n hn c rest hc
    unfold fracDigits
    split_ifs with h0
    · subst h0
      simp [parseFrac, hc]
    · have hlt : n / 10 ^ width < 10 := by
        rw [Nat.div_lt_iff_lt_mul (by positivity)]
        rw [pow_succ] at hn
        omega
      have hpos : 0 < 10 ^ width := by positivity
      have hmod : n % 10 ^ width < 10 ^ width := Nat.mod_lt _ hpos
      simp only [List.cons_append, parseFrac]
      rw [if_pos (by simp [isDigit]; omega)]
      have ih' := ih _ hmod c rest hc
      simp only [List.append_eq] at ih' ⊢
      rw [ih']
      simp only [byte_val]
      congr 1
      have h1 : ∀ q, q < 10 → (48 + q % 10) % 256 - 48 = q := by intro q hq; omega
      rw [h1 _ hlt]
      exact Nat.div_add_mod' n (10 ^ width)

theorem fracDigits_cons (n : Nat) (h0 : n ≠ 0) :
    ∃ d ds, fracDigits 9 n = d :: ds ∧ isDigit d = true := by
  refine ⟨_, _, by rw [fracDigits, if_neg h0], ?_⟩
  simp [isDigit]
  omega

theorem zoneText_cons (offset : Int) :
    ∃ z zs, zoneText offset = z :: zs ∧ isDigit z = false ∧ z.val ≠ 0x2E := by
  unfold zoneText
  split_ifs
  · exact ⟨_, _, rfl, by decide, by decide⟩
  · exact ⟨_, _, rfl, by decide, by decide⟩
  · exact ⟨_, _, rfl, by decide, by decide⟩

theorem parseZone_zoneText (offset : Int) (h : offset.natAbs / 60 < 24) (tail : GoString) :
    parseZone (zoneText offset ++ tail) = some (offset, tail) := by
  unfold zoneText
  split_ifs with h0 hneg
  · subst h0
    simp [parseZone]
  · simp only [List.cons_append, List.nil_append, List.append_assoc, parseZone, byte_val]
    simp only [Nat.reduceMod, Nat.reduceEqDiff, if_false, or_true, if_true]
    rw [parse2_pad2 _ (by omega)]
    simp only [expect_byte 0x3A (by decide)]
    rw [parse2_pad2 _ (by omega)]
    simp only
    rw [if_neg (by omega)]
    congr 2
    have hm : offset.natAbs / 60 * 60 + offset.natAbs % 60 = offset.natAbs := by omega
    rw [hm]
    omega
  · simp only [List.cons_append, List.nil_append, List.append_assoc, parseZone, byte_val]
    simp only [Nat.reduceMod, Nat.reduceEqDiff, if_false, true_or, if_true]
    rw [parse2_pad2 _ (by omega)]
    simp only [expect_byte 0x3A (by decide)]
    rw [parse2_pad2 _ (by omega)]
    simp only
    rw [if_neg (by omega)]
    congr 2
    have hm : offset.natAbs / 60 * 60 + offset.natAbs % 60 = offset.natAbs := by omega
    rw [hm]
    omega

/-- Reading back a time. -/
theorem parseRFC3339_format (t : Time) (ts : GoString) (h : formatRFC3339 t = some ts)
    (tail : GoString) : parseRFC3339 (ts ++ tail) = some (t, tail) := by
  obtain ⟨year, month, day, hour, minute, second, nsec, offset, valid⟩ := t
  unfold formatRFC3339 at h
  simp only at h
  by_cases hy : year < 0 ∨ 9999 < year
  · rw [if_pos hy] at h; cases h
  rw [if_neg hy] at h
  by_cases hz : 24 ≤ offset.natAbs / 60
  · rw [if_pos hz] at h; cases h
  rw [if_neg hz] at h
  simp only [Option.some.injEq] at h
  have hv := valid
  simp only [validClock, decide_eq_true_eq] at hv
  have hdays : daysIn month year ≤ 31 := by
    unfold daysIn; split_ifs <;> omega
  obtain ⟨z, zs, hzc, hzd, hzp⟩ := zoneText_cons offset
  have hfrac : parseFraction ((if nsec = 0 then [] else byte 0x2E :: fracDigits 9 nsec) ++
      (zoneText offset ++ tail)) = (nsec, zoneText offset ++ tail) := by
    unfold parseFraction
    split_ifs with hn
    · subst hn
      rw [hzc]
      simp only [List.nil_append, List.cons_append]
      split
      · next p d rest heq =>
        simp only [List.cons.injEq] at heq
        rw [if_neg (by rw [← heq.1]; tauto), heq.1, heq.2]
      · rfl
    · obtain ⟨d, ds, hd, hdd⟩ := fracDigits_cons nsec hn
      have := parseFrac_fracDigits 9 nsec (by omega) z (zs ++ tail) hzd
      rw [hd] at this
      rw [hd, hzc]
      simp only [List.cons_append, byte_val, Nat.reduceMod, hdd, and_self, if_true]
      exact this
  subst h
  simp only [List.append_assoc, List.singleton_append, List.cons_append, List.nil_append]
  unfold parseRFC3339
  rw [parse2_pad2 _ (by omega)]
  simp only
  rw [parse2_pad2 _ (by omega)]
  simp only [expect_byte 0x2D (by decide)]
  rw [parse2_pad2 _ (by omega)]
  simp only [expect_byte 0x2D (by decide)]
  rw [parse2_pad2 _ (by omega)]
  simp only [expect_byte 0x54 (by decide)]
  rw [parse2_pad2 _ (by omega)]
  simp only [expect_byte 0x3A (by decide)]
  rw [parse2_pad2 _ (by omega)]
  simp only [expect_byte 0x3A (by decide)]
  rw [parse2_pad2 _ (by omega)]
  simp only
  have hyear : ((year.natAbs / 100 * 100 + year.natAbs % 100 : Nat) : Int) = year := by omega
  simp only [hfrac, parseZone_zoneText offset (by omega), hyear, valid, dite_true]

/-- Reading back a time value. -/
theorem parseTime_format (t : Time) (ts : GoString) (h : formatRFC3339 t = some ts)
    (tail : GoString) :
    parseTime (byte 0x22 :: (ts ++ byte 0x22 :: tail)) = some (t, tail) := by
  unfold parseTime
  rw [skipSpace_cons _ _ (by decide), expect_byte 0x22 (by decide)]
  simp only
  rw [parseRFC3339_format t ts h]
  simp only [expect_byte 0x22 (by decide)]

theorem joinComma_cons (x : GoString) (xs : List GoString) :
    joinComma (x :: xs) = x ++ xs.flatMap (fun y => byte 0x2C :: y) := by
  induction xs generalizing x with
  | nil => simp [joinComma]
  | cons y ys ih => rw [joinComma, ih y]; simp

theorem length_le_flatMap (xs : List GoString) :
    xs.length ≤ (xs.flatMap (fun y => byte 0x2C :: y)).length := by
  induction xs with
  | nil => simp
  | cons y ys ih =>
    simp only [List.flatMap_cons, List.length_append, List.length_cons]; omega

theorem parseElements_flatMap {α : Type} (elem : GoString → Option (α × GoString))
    (enc : α → GoString) (xs : List α) :
    ∀ (fuel : Nat) (tail : GoString), xs.length < fuel →
      (∀ x ∈ xs, ∀ t, closes t → elem (enc x ++ t) = some (x, t)) →
      parseElements elem fuel
        ((xs.map enc).flatMap (fun y => byte 0x2C :: y) ++ byte 0x5D :: tail) = some (xs, tail) := by
  induction xs with
  | nil =>
    intro fuel tail hf _
    cases fuel with
    | zero => simp at hf
    | succ fuel =>
      simp only [List.map_nil, List.flatMap_nil, List.nil_append, parseElements]
      rw [skipSpace_cons _ _ (by decide)]
      simp
  | cons x xs ih =>
    intro fuel tail hf h
    cases fuel with
    | zero => simp at hf
    | succ fuel =>
      simp only [List.map_cons, List.flatMap_cons, List.cons_append, List.append_assoc,
        parseElements]
      rw [skipSpace_cons _ _ (by decide)]
      simp only [byte_val, Nat.reduceMod, Nat.reduceEqDiff, if_false, if_true]
      have hcl : closes ((xs.map enc).flatMap (fun y => byte 0x2C :: y) ++ byte 0x5D :: tail) := by
        cases xs with
        | nil => exact ⟨_, _, rfl, Or.inr (Or.inl rfl)⟩
        | cons y ys => exact ⟨_, _, rfl, Or.inl rfl⟩
      rw [h x (by simp) _ hcl]
      simp only
      rw [ih fuel tail (by simpa using hf) (fun y hy => h y (by simp [hy]))]
      rfl

/-- Reading back a non-empty array. -/
theorem parseArray_encodeArray {α : Type} (elem : GoString → Option (α × GoString))
    (enc : α → GoString) (x : α) (xs : List α) (tail : GoString)
    (h : ∀ y ∈ x :: xs, ∀ t, closes t → elem (enc y ++ t) = some (y, t))
    (hx : ∃ c cs, enc x = c :: cs ∧ isSpace c = false ∧ c.val ≠ 0x5D) :
    parseArray elem (encodeArray ((x :: xs).map enc) ++ tail) = some (x :: xs, tail) := by
  obtain ⟨c, cs, hc, hsp, hne⟩ := hx
  unfold parseArray encodeArray
  simp only [List.cons_append, List.append_assoc, List.singleton_append, List.nil_append]
  rw [skipSpace_cons _ _ (by decide), expect_byte 0x5B (by decide)]
  simp only [List.map_cons, joinComma_cons, List.append_assoc]
  have hcl : closes ((xs.map enc).flatMap (fun y => byte 0x2C :: y) ++ byte 0x5D :: tail) := by
    cases xs with
    | nil => exact ⟨_, _, rfl, Or.inr (Or.inl rfl)⟩
    | cons y ys => exact ⟨_, _, rfl, Or.inl rfl⟩
  have he : expect 0x5D (skipSpace (enc x ++
      ((xs.map enc).flatMap (fun y => byte 0x2C :: y) ++ byte 0x5D :: tail))) = none := by
    rw [hc, List.cons_append, skipSpace_cons _ _ hsp]
    simp [expect, hne]
  rw [he]
  simp only
  rw [h x (by simp) _ hcl]
  simp only
  rw [parseElements_flatMap elem enc xs _ tail (by
    simp only [List.length_append, List.length_cons]
    have := length_le_flatMap (xs.map enc)
    simp only [List.length_map] at this
    omega) (fun y hy => h y (by simp [hy]))]
  rfl

/-- Reading back an empty array. -/
theorem parseArray_empty {α : Type} (elem : GoString → Option (α × GoString)) (tail : GoString) :
    parseArray elem (encodeArray [] ++ tail) = some ([], tail) := by
  unfold parseArray encodeArray
  simp only [joinComma, List.nil_append, List.cons_append]
  rw [skipSpace_cons _ _ (by decide), expect_byte 0x5B (by decide)]
  simp only
  rw [skipSpace_cons _ _ (by decide), expect_byte 0x5D (by decide)]

/-- Reading back the members of an object, each stored by `field`. -/
theorem parseMembers_joinComma {α : Type}
    (field : GoString → α → GoString → Option (α × GoString))
    (ms : List (String × GoString × (α → α)))
    (h : ∀ m ∈ ms, utf8Valid (str m.1) = true ∧
      ∀ acc t, closes t → field (str m.1) acc (m.2.1 ++ t) = some (m.2.2 acc, t)) :
    ∀ (fuel : Nat) (acc : α) (tail : GoString), ms.length ≤ fuel → ms ≠ [] →
      parseMembers field fuel acc
          (joinComma (ms.map fun m => encodeMember m.1 m.2.1) ++ byte 0x7D :: tail) =
        some (ms.foldl (fun a m => m.2.2 a) acc, tail) := by
  induction ms with
  | nil => intro fuel acc tail _ hne; exact absurd rfl hne
  | cons m ms ih =>
    intro fuel acc tail hf _
    obtain ⟨n, rfl⟩ : ∃ n, fuel = n + 1 := ⟨fuel - 1, by simp at hf; omega⟩
    have hm := h m (by simp)
    simp only [List.map_cons, joinComma_cons, encodeMember, List.append_assoc, List.cons_append,
      parseMembers]
    rw [parseString_appendString _ _ hm.1]
    simp only
    rw [skipSpace_cons _ _ (by decide), expect_byte 0x3A (by decide)]
    simp only
    cases ms with
    | nil =>
      simp only [List.map_nil, List.flatMap_nil, List.nil_append]
      rw [hm.2 acc _ ⟨_, _, rfl, Or.inr (Or.inr rfl)⟩]
      simp only
      rw [skipSpace_cons _ _ (by decide)]
      simp
    | cons m' ms' =>
      simp only [List.map_cons, List.flatMap_cons, List.cons_append, List.append_assoc]
      rw [hm.2 acc _ ⟨_, _, rfl, Or.inl rfl⟩]
      simp only
      rw [skipSpace_cons _ _ (by decide)]
      simp only [byte_val, Nat.reduceMod, Nat.reduceEqDiff, if_false, if_true]
      have := ih (fun x hx => h x (by simp [hx])) n (m.2.2 acc) tail (by simpa using hf)
        (by simp)
      simp only [List.map_cons, joinComma_cons, encodeMember, List.append_assoc,
        List.cons_append] at this
      rw [this]
      rfl

/-- Reading back an object with at least one member. -/
theorem parseObject_encodeObject {α : Type}
    (field : GoString → α → GoString → Option (α × GoString)) (zero : α)
    (ms : List (String × GoString × (α → α))) (hne : ms ≠ [])
    (h : ∀ m ∈ ms, utf8Valid (str m.1) = true ∧
      ∀ acc t, closes t → field (str m.1) acc (m.2.1 ++ t) = some (m.2.2 acc, t))
    (tail : GoString) :
    parseObject field zero (encodeObject (ms.map fun m => encodeMember m.1 m.2.1) ++ tail) =
      some (ms.foldl (fun a m => m.2.2 a) zero, tail) := by
  unfold parseObject encodeObject
  simp only [List.cons_append, List.append_assoc, List.singleton_append, List.nil_append]
  rw [skipSpace_cons _ _ (by decide), expect_byte 0x7B (by decide)]
  simp only
  have hhead : ∃ rest, joinComma (ms.map fun m => encodeMember m.1 m.2.1) ++ byte 0x7D :: tail =
      byte 0x22 :: rest ∧ ms.length ≤ rest.length := by
    cases ms with
    | nil => exact absurd rfl hne
    | cons m ms =>
      refine ⟨appendStringLoop (str m.1).length (str m.1) ++ byte 0x22 :: byte 0x3A :: (m.2.1 ++
        ((ms.map fun m => encodeMember m.1 m.2.1).flatMap (fun y => byte 0x2C :: y) ++
          byte 0x7D :: tail)), ?_, ?_⟩
      · simp only [List.map_cons, joinComma_cons, encodeMember, appendString_eq,
          List.cons_append, List.append_assoc, List.nil_append, List.singleton_append]
      · have := length_le_flatMap (ms.map fun m => encodeMember m.1 m.2.1)
        simp only [List.length_map] at this
        simp only [List.length_append, List.length_cons]
        omega
  obtain ⟨rest, hrest, hlen⟩ := hhead
  rw [hrest, skipSpace_cons _ _ (by decide)]
  have he : expect 0x7D (byte 0x22 :: rest) = none := by simp [expect]
  rw [he]
  simp only
  rw [← hrest]
  exact parseMembers_joinComma field ms h _ zero tail (by rw [hrest]; simp; omega) hne

theorem appendString_length (s : GoString) : 2 ≤ (appendString s).length := by
  rw [appendString_eq]; simp

theorem parseNull_appendString (s rest : GoString) : parseNull (appendString s ++ rest) = none := by
  rw [appendString_eq, List.cons_append]
  exact parseNull_none _ _ (by decide) (by decide)

theorem parseNull_encodeBool (b : Bool) (rest : GoString) :
    parseNull (encodeBool b ++ rest) = none := by
  have ht : str "true" = [byte 0x74, byte 0x72, byte 0x75, byte 0x65] := by decide
  have hf : str "false" = [byte 0x66, byte 0x61, byte 0x6C, byte 0x73, byte 0x65] := by decide
  cases b
  · simp only [encodeBool, Bool.false_eq_true, if_false, hf, List.cons_append]
    exact parseNull_none _ _ (by decide) (by decide)
  · simp only [encodeBool, if_true, ht, List.cons_append]
    exact parseNull_none _ _ (by decide) (by decide)

theorem parseNull_formatInt (i : Int) (rest : GoString) :
    parseNull (formatInt i ++ rest) = none := by
  obtain ⟨d, ds, hf, hd, -⟩ := formatNat_cons i.natAbs
  simp only [isDigit, decide_eq_true_eq] at hd
  unfold formatInt
  split_ifs
  · rw [List.cons_append]
    exact parseNull_none _ _ (by decide) (by decide)
  · rw [hf, List.cons_append]
    exact parseNull_none _ _ (by simp [isSpace]; omega) (by omega)

theorem parseNull_null (rest : GoString) : parseNull (str "null" ++ rest) = some rest := by
  have hn : str "null" = [byte 0x6E, byte 0x75, byte 0x6C, byte 0x6C] := by decide
  unfold parseNull
  rw [hn, List.cons_append, skipSpace_cons _ _ (by decide)]
  simp [expectLit, List.isPrefixOf]

theorem field_condition (acc : ConditionResult) (v : GoString) (t : GoString)
    (h : utf8Valid v = true) :
    conditionResultField (str "condition") acc (appendString v ++ t) =
      some ({ acc with Condition := v }, t) := by
  unfold conditionResultField
  rw [if_pos rfl, parseNull_appendString, parseString_appendString _ _ h]
  rfl

theorem field_conditionSuccess (acc : ConditionResult) (v : Bool) (t : GoString) :
    conditionResultField (str "success") acc (encodeBool v ++ t) =
      some ({ acc with Success := v }, t) := by
  unfold conditionResultField
  rw [if_neg (by decide), if_pos rfl, parseNull_encodeBool, parseBool_encodeBool]
  rfl

theorem utf8Valid_keys :
    utf8Valid (str "condition") = true ∧ utf8Valid (str "success") = true ∧
      utf8Valid (str "status") = true ∧ utf8Valid (str "hostname") = true ∧
      utf8Valid (str "duration") = true ∧ utf8Valid (str "errors") = true ∧
      utf8Valid (str "conditionResults") = true ∧ utf8Valid (str "timestamp") = true := by
  decide

/-- Reading back a condition result. -/
theorem parseConditionResult_encode (c : ConditionResult) (tail : GoString)
    (h : utf8Valid c.Condition = true) :
    parseConditionResult (encodeConditionResult c ++ tail) = some (c, tail) := by
  have key := parseObject_encodeObject conditionResultField
    { Condition := [], Success := false }
    [("condition", appendString c.Condition, fun a => { a with Condition := c.Condition }),
     ("success", encodeBool c.Success, fun a => { a with Success := c.Success })]
    (by simp) (by
      intro m hm
      simp only [List.mem_cons, List.mem_singleton, List.not_mem_nil, or_false] at hm
      rcases hm with rfl | rfl
      · exact ⟨utf8Valid_keys.1, fun acc t _ => field_condition acc _ t h⟩
      · exact ⟨utf8Valid_keys.2.1, fun acc t _ => field_conditionSuccess acc _ t⟩) tail
  exact key

theorem field_status (acc : Result) (v : Int) (t : GoString) (ht : closes t) :
    resultField (str "status") acc (formatInt v ++ t) = some ({ acc with HTTPStatus := v }, t) := by
  unfold resultField
  rw [if_pos rfl, parseNull_formatInt, parseInt_formatInt _ _ ht]
  rfl

theorem field_hostname (acc : Result) (v : GoString) (t : GoString)
    (h : utf8Valid v = true) :
    resultField (str "hostname") acc (appendString v ++ t) =
      some ({ acc with Hostname := v }, t) := by
  unfold resultField
  rw [if_neg (by decide), if_pos rfl, parseNull_appendString, parseString_appendString _ _ h]
  rfl

theorem field_duration (acc : Result) (v : Int) (t : GoString) (ht : closes t) :
    resultField (str "duration") acc (formatInt v ++ t) = some ({ acc with Duration := v }, t) := by
  unfold resultField
  rw [if_neg (by decide), if_neg (by decide), if_pos rfl, parseNull_formatInt,
    parseInt_formatInt _ _ ht]
  rfl

theorem field_errors (acc : Result) (es : List GoString) (t : GoString) (hne : es ≠ [])
    (h : ∀ x ∈ es, utf8Valid x = true) :
    resultField (str "errors") acc (encodeArray (es.map appendString) ++ t) =
      some ({ acc with Errors := es }, t) := by
  obtain ⟨e, es, rfl⟩ : ∃ e es', es = e :: es' := by
    cases es with
    | nil => exact absurd rfl hne
    | cons e es => exact ⟨e, es, rfl⟩
  unfold resultField
  rw [if_neg (by decide), if_neg (by decide), if_neg (by decide), if_pos rfl,
    show parseNull (encodeArray ((e :: es).map appendString) ++ t) = none from
      parseNull_none _ _ (by decide) (by decide),
    parseArray_encodeArray parseString appendString e es _
      (fun y hy t _ => parseString_appendString y t (h y hy))
      ⟨_, _, appendString_eq e, by decide, by decide⟩]
  rfl

theorem field_conditionResults (acc : Result) (cs : List ConditionResult) (t : GoString)
    (h : ∀ x ∈ cs, utf8Valid x.Condition = true) :
    resultField (str "conditionResults") acc
        ((if cs = [] then str "null" else encodeArray (cs.map encodeConditionResult)) ++ t) =
      some ({ acc with ConditionResults := cs }, t) := by
  unfold resultField
  rw [if_neg (by decide), if_neg (by decide), if_neg (by decide), if_neg (by decide), if_pos rfl]
  cases cs with
  | nil => rw [if_pos rfl, parseNull_null]
  | cons c cs =>
    rw [if_neg (by simp),
      show parseNull (encodeArray ((c :: cs).map encodeConditionResult) ++ t) = none from
        parseNull_none _ _ (by decide) (by decide),
      parseArray_encodeArray parseConditionResult encodeConditionResult c cs _
        (fun y hy t _ => parseConditionResult_encode y t (h y hy))
        ⟨_, _, rfl, by decide, by decide⟩]
    rfl

theorem field_success (acc : Result) (v : Bool) (t : GoString) :
    resultField (str "success") acc (encodeBool v ++ t) = some ({ acc with Success := v }, t) := by
  unfold resultField
  rw [if_neg (by decide), if_neg (by decide), if_neg (by decide), if_neg (by decide),
    if_neg (by decide), if_pos rfl, parseNull_encodeBool, parseBool_encodeBool]
  rfl

theorem field_timestamp (acc : Result) (v : Time) (ts : GoString)
    (h : formatRFC3339 v = some ts) (t : GoString) :
    resultField (str "timestamp") acc (byte 0x22 :: (ts ++ [byte 0x22]) ++ t) =
      some ({ acc with Timestamp := v }, t) := by
  unfold resultField
  rw [if_neg (by decide), if_neg (by decide), if_neg (by decide), if_neg (by decide),
    if_neg (by decide), if_neg (by decide), if_pos rfl]
  simp only [List.cons_append, List.append_assoc, List.singleton_append]
  rw [parseNull_none _ _ (by decide) (by decide), parseTime_format v ts h]
  rfl

/-- Reading back a record whose strings are valid UTF-8. -/
theorem parseResult_encodeResult (r : Result) (text tail : GoString)
    (h : encodeResult r = some text) (hv : r.validUTF8 = true) :
    parseResult (text ++ tail) = some (r, tail) := by
  unfold encodeResult at h
  cases hts : formatRFC3339 r.Timestamp with
  | none => simp [hts] at h
  | some ts =>
    simp only [hts, Option.some.injEq] at h
    subst h
    simp only [Result.validUTF8, Bool.and_eq_true, List.all_eq_true] at hv
    obtain ⟨⟨hh, he⟩, hc⟩ := hv
    have key := parseObject_encodeObject resultField
      { HTTPStatus := 0, Hostname := [], Duration := 0, Errors := [], ConditionResults := [],
        Success := false, Timestamp := Time.zero }
      ([("status", formatInt r.HTTPStatus, fun a => { a with HTTPStatus := r.HTTPStatus })] ++
        (if r.Hostname = [] then []
         else [("hostname", appendString r.Hostname,
           fun (a : Result) => { a with Hostname := r.Hostname })]) ++
        [("duration", formatInt r.Duration, fun a => { a with Duration := r.Duration })] ++
        (if r.Errors = [] then []
         else [("errors", encodeArray (r.Errors.map appendString),
           fun (a : Result) => { a with Errors := r.Errors })]) ++
        [("conditionResults",
            (if r.ConditionResults = [] then str "null"
             else encodeArray (r.ConditionResults.map encodeConditionResult)),
            fun a => { a with ConditionResults := r.ConditionResults }),
         ("success", encodeBool r.Success, fun a => { a with Success := r.Success }),
         ("timestamp", byte 0x22 :: (ts ++ [byte 0x22]),
            fun a => { a with Timestamp := r.Timestamp })])
      (by simp) (by
        intro m hm
        simp only [List.mem_append, List.mem_cons, List.mem_singleton, List.not_mem_nil,
          or_false] at hm
        rcases hm with (((rfl | hm) | rfl) | hm) | rfl | rfl | rfl
        · exact ⟨utf8Valid_keys.2.2.1, fun acc t ht => field_status acc _ t ht⟩
        · split_ifs at hm with h0
          · simp at hm
          · simp only [List.mem_singleton] at hm
            subst hm
            exact ⟨utf8Valid_keys.2.2.2.1, fun acc t _ => field_hostname acc _ t hh⟩
        · exact ⟨utf8Valid_keys.2.2.2.2.1, fun acc t ht => field_duration acc _ t ht⟩
        · split_ifs at hm with h0
          · simp at hm
          · simp only [List.mem_singleton] at hm
            subst hm
            exact ⟨utf8Valid_keys.2.2.2.2.2.1, fun acc t _ => field_errors acc _ t h0 he⟩
        · exact ⟨utf8Valid_keys.2.2.2.2.2.2.1, fun acc t _ => field_conditionResults acc _ t hc⟩
        · exact ⟨utf8Valid_keys.2.1, fun acc t _ => field_success acc _ t⟩
        · exact ⟨utf8Valid_keys.2.2.2.2.2.2.2, fun acc t _ => field_timestamp acc _ ts hts t⟩) tail
    unfold parseResult
    have hmap : ∀ (p : Prop) [Decidable p] (x : String × GoString × (Result → Result)),
        List.map (fun m : String × GoString × (Result → Result) => encodeMember m.1 m.2.1)
          (if p then [] else [x]) = if p then [] else [encodeMember x.1 x.2.1] := by
      intro p _ x; split_ifs <;> rfl
    simp only [List.map_append, List.map_cons, List.map_nil, hmap] at key
    rw [key]
    obtain ⟨s, hn, d, es, cs, ok, t⟩ := r
    simp only [List.foldl_append, List.foldl_cons, List.foldl_nil, Option.some.injEq,
      Prod.mk.injEq, and_true]
    by_cases h1 : hn = [] <;> by_cases h2 : es = [] <;> simp [h1, h2]

theorem encodeAll_eq (rs : List Result) : ∀ xs, encodeAll rs = some xs →
    xs = rs.map (fun r => (encodeResult r).getD []) ∧
      ∀ r ∈ rs, encodeResult r = some ((encodeResult r).getD []) := by
  induction rs with
  | nil => intro xs h; simp [encodeAll] at h; simp [h]
  | cons r rs ih =>
    intro xs h
    unfold encodeAll at h
    cases hr : encodeResult r with
    | none => simp [hr] at h
    | some x =>
      cases hrs : encodeAll rs with
      | none => simp [hr, hrs] at h
      | some ys =>
        simp only [hr, hrs, Option.some.injEq] at h
        obtain ⟨h1, h2⟩ := ih ys hrs
        subst h
        refine ⟨by simp [hr, h1], ?_⟩
        intro r' hr'
        simp only [List.mem_cons] at hr'
        rcases hr' with rfl | hr'
        · simp [hr]
        · exact h2 r' hr'

theorem encodeResult_head (r : Result) (x : GoString) (h : encodeResult r = some x) :
    ∃ cs, x = byte 0x7B :: cs := by
  unfold encodeResult at h
  split at h
  · cases h
  · simp only [Option.some.injEq] at h
    exact ⟨_, h.symm⟩

/-- Reading back the history: the decoder returns the records the encoder was given,
whatever follows the encoded array in the file. -/
theorem decodeResults_encodeResults (rs : List Result) (text stale : GoString)
    (h : encodeResults rs = some text) (hv : ∀ r ∈ rs, r.validUTF8 = true) :
    decodeResults (text ++ stale) = some rs := by
  unfold encodeResults at h
  cases hall : encodeAll rs with
  | none => simp [hall] at h
  | some xs =>
    simp only [hall, Option.some.injEq] at h
    obtain ⟨hxs, hsome⟩ := encodeAll_eq rs xs hall
    subst h
    unfold decodeResults
    have hnull : parseNull (encodeArray xs ++ [byte 0x0A] ++ stale) = none :=
      parseNull_none _ _ (by decide) (by decide)
    rw [hnull]
    simp only [List.append_assoc]
    cases rs with
    | nil =>
      simp only [List.map_nil] at hxs
      subst hxs
      rw [parseArray_empty]
      rfl
    | cons r rs =>
      rw [hxs, parseArray_encodeArray parseResult (fun r => (encodeResult r).getD []) r rs _
        (fun y hy t _ => parseResult_encodeResult y _ t (hsome y hy) (hv y hy))
        (by
          obtain ⟨cs, hcs⟩ := encodeResult_head r _ (hsome r (by simp))
          exact ⟨_, cs, hcs, by decide, by decide⟩)]
      rfl

/-! ## Store lemmas -/

theorem SaveResult_store (codec : Codec) (f : fileStore) (fs : FileSystem) (fault : Fault)
    (result : Result) :
    (f.SaveResult codec fs fault result).1 =
      { f with results :=
          if ((f.results ++ [result]).length : Int) > f.resultsToKeep
          then (f.results ++ [result]).drop 1 else f.results ++ [result] } := by
  unfold fileStore.SaveResult
  simp only
  split <;> rfl

theorem writeResults_fails (codec : Codec) (f : fileStore) (fs : FileSystem) (fault : Fault)
    (h : (∃ err, fault = .openFails err) ∨ fs f.dataPath = none ∨
      (∃ written err, fault = .writeFails written err)) :
    (f.writeResults codec fs fault).2 ≠ none := by
  unfold fileStore.writeResults
  rcases h with ⟨err, rfl⟩ | hmiss | ⟨written, err, rfl⟩
  · simp [OpenFile]
  · cases fault <;> simp [OpenFile, hmiss]
  · cases hfs : fs f.dataPath with
    | none => simp [OpenFile, hfs]
    | some content =>
      simp only [OpenFile, hfs]
      split <;> simp

theorem writeResults_ok (codec : Codec) (f : fileStore) (fs : FileSystem) (fault : Fault)
    (h : (f.writeResults codec fs fault).2 = none) :
    ∃ old data, fs f.dataPath = some old ∧ codec.encode f.results = .ok data ∧
      (f.writeResults codec fs fault).1 = fs.set f.dataPath (overwrite old data) := by
  unfold fileStore.writeResults at h ⊢
  unfold OpenFile at h ⊢
  cases fault with
  | openFails err => simp at h
  | none =>
    cases hfs : fs f.dataPath with
    | none => simp [hfs] at h
    | some old =>
      simp only [hfs] at h ⊢
      cases henc : codec.encode f.results with
      | error err => simp [henc] at h
      | ok data => exact ⟨old, data, rfl, rfl, by simp [hfs]⟩
  | statFails err =>
    cases hfs : fs f.dataPath with
    | none => simp [hfs] at h
    | some old =>
      simp only [hfs] at h ⊢
      cases henc : codec.encode f.results with
      | error err => simp [henc] at h
      | ok data => exact ⟨old, data, rfl, rfl, by simp [hfs]⟩
  | writeFails n err =>
    cases hfs : fs f.dataPath with
    | none => simp [hfs] at h
    | some old =>
      simp only [hfs] at h ⊢
      cases henc : codec.encode f.results with
      | error err => simp [henc] at h
      | ok data => simp [henc] at h

theorem SaveResult_eq (codec : Codec) (f : fileStore) (fs : FileSystem) (fault : Fault)
    (result : Result) :
    f.SaveResult codec fs fault result =
      ((f.SaveResult codec fs fault result).1,
        ((f.SaveResult codec fs fault result).1.writeResults codec fs fault).1,
        ((f.SaveResult codec fs fault result).1.writeResults codec fs fault).2) := by
  unfold fileStore.SaveResult
  rfl

theorem goJSON_encode_ok (rs : List Result) (data : GoString) (h : goJSON.encode rs = .ok data) :
    encodeResults rs = some data ∧ 0 < data.length := by
  unfold goJSON at h
  simp only at h
  cases he : encodeResults rs with
  | none => simp [he] at h
  | some d =>
    simp only [he, Except.ok.injEq] at h
    subst h
    refine ⟨rfl, ?_⟩
    unfold encodeResults at he
    split at he
    · cases he
    · simp only [Option.some.injEq] at he
      subst he
      simp

theorem saveAll_keeps (codec : Codec) (c : Int) (steps : List (Fault × Result)) :
    ∀ (f : fileStore) (fs : FileSystem), f.resultsToKeep = c →
      (saveAll codec f fs steps).1.resultsToKeep = c ∧
      (saveAll codec f fs steps).1.dataPath = f.dataPath := by
  induction steps with
  | nil => intro f fs h; exact ⟨h, rfl⟩
  | cons step rest ih =>
    intro f fs h
    obtain ⟨fault, result⟩ := step
    simp only [saveAll]
    have hs := SaveResult_store codec f fs fault result
    have := ih (f.SaveResult codec fs fault result).1 (f.SaveResult codec fs fault result).2.1
      (by rw [hs]; exact h)
    rw [this.1, this.2, hs]
    exact ⟨rfl, rfl⟩

theorem saveAll_window (codec : Codec) (c : Nat) (steps : List (Fault × Result)) :
    ∀ (f : fileStore) (fs : FileSystem) (seen : List Result), f.resultsToKeep = c →
      f.results = seen.drop (seen.length - c) →
      (saveAll codec f fs steps).1.results =
        (seen ++ steps.map Prod.snd).drop ((seen ++ steps.map Prod.snd).length - c) := by
  induction steps with
  | nil => intro f fs seen _ h; simpa [saveAll] using h
  | cons step rest ih =>
    intro f fs seen hc h
    obtain ⟨fault, result⟩ := step
    simp only [saveAll]
    have hs := SaveResult_store codec f fs fault result
    have key := ih (f.SaveResult codec fs fault result).1 (f.SaveResult codec fs fault result).2.1
      (seen ++ [result]) (by rw [hs]; exact hc) (by
        rw [hs]
        simp only [hc, h, List.length_append, List.length_drop, List.length_singleton]
        by_cases hlen : seen.length < c
        · have h0 : seen.length - c = 0 := by omega
          have h1 : seen.length + 1 - c = 0 := by omega
          rw [h0, h1]
          simp only [List.drop_zero, Nat.sub_zero]
          rw [if_neg (by omega)]
        · have h1 : seen.length + 1 - c = (seen.length - c) + 1 := by omega
          rw [if_pos (by omega), h1, ← List.drop_drop]
          congr 1
          rw [List.drop_append_of_le_length (by omega)])
    simpa [List.append_assoc] using key

theorem saveAll_length_le (codec : Codec) (steps : List (Fault × Result)) :
    ∀ (f : fileStore) (fs : FileSystem) (bound : Int), f.resultsToKeep ≤ bound →
      (f.results.length : Int) ≤ bound →
      ((saveAll codec f fs steps).1.results.length : Int) ≤ bound := by
  induction steps with
  | nil => intro f fs bound _ h; simpa [saveAll] using h
  | cons step rest ih =>
    intro f fs bound hc h
    obtain ⟨fault, result⟩ := step
    simp only [saveAll]
    have hs := SaveResult_store codec f fs fault result
    apply ih
    · rw [hs]; exact hc
    · rw [hs]
      simp only [List.length_append, List.length_singleton]
      split
      · simp only [List.length_drop, List.length_append, List.length_singleton]
        omega
      · simp only [List.length_append, List.length_singleton] at *
        omega

/-! ## Evaluator lemmas -/

theorem poolLoop_eq (pools : List Pool) :
    ∀ (conditions : List ConditionResult) (overallFailure : Bool),
      poolLoop pools conditions overallFailure =
        (conditions ++ pools.map fun p =>
            { Condition := p.Name ++ str " == Healthy", Success := IsPoolHealthy p },
          overallFailure || !(pools.all IsPoolHealthy)) := by
  induction pools with
  | nil => intro conditions overallFailure; simp [poolLoop]
  | cons pool rest ih =>
    intro conditions overallFailure
    unfold poolLoop
    cases hp : IsPoolHealthy pool <;> simp [ih, hp]

theorem all_healthy_eq (pools : List Pool) :
    pools.all IsPoolHealthy =
      (pools.map fun p =>
        ({ Condition := p.Name ++ str " == Healthy", Success := IsPoolHealthy p } :
          ConditionResult)).all (fun c => c.Success) := by
  induction pools with
  | nil => rfl
  | cons pool rest ih => simp only [List.all_cons, List.map_cons, ih]

theorem GetPools_error (env : PoolsEnv) (err : GoError) (h : GetPools env = .error err) :
    ∃ reason code message, err = .trueNasError reason code message := by
  unfold GetPools at h
  split at h
  · cases h; exact ⟨_, _, _, rfl⟩
  · unfold «do» at h
    split at h
    · cases h; exact ⟨_, _, _, rfl⟩
    · cases h; exact ⟨_, _, _, rfl⟩
    · split at h
      · cases h; exact ⟨_, _, _, rfl⟩
      · split at h
        · cases h; exact ⟨_, _, _, rfl⟩
        · cases h

/-! ## The claims -/

/-- C1. Bounded retention: after more than `c` records have been saved one after another
into a store of capacity `c` that started empty, `GetResults` returns exactly the last
`c` records saved, in the order they were saved, and no error. -/
theorem bounded_retention (codec : Codec) (c : Nat) (path : GoString) (fs : FileSystem)
    (steps : List (Fault × Result)) (h : c < steps.length) :
    ((saveAll codec { dataPath := path, resultsToKeep := c, results := [] } fs steps).1.GetResults
        = ((steps.map Prod.snd).drop (steps.length - c), none)) ∧
      (saveAll codec { dataPath := path, resultsToKeep := c, results := [] } fs
        steps).1.GetResults.1.length = c := by
  have hw := saveAll_window codec c steps { dataPath := path, resultsToKeep := c, results := [] }
    fs [] rfl (by simp)
  simp only [List.nil_append, List.length_map] at hw
  constructor
  · simp only [fileStore.GetResults, hw]
  · simp only [fileStore.GetResults, hw, List.length_drop, List.length_map]
    omega

/-- Witness of C1: capacity 2 and three records; the last two are kept, in order. -/
theorem bounded_retention_witness :
    2 < [(Fault.none, failedProbe), (Fault.none, healthyProbe),
        (Fault.none, garbledProbe)].length ∧
      (saveAll goJSON { dataPath := dataFile, resultsToKeep := (2 : Nat), results := [] }
        (noFiles.set dataFile [])
        [(Fault.none, failedProbe), (Fault.none, healthyProbe),
          (Fault.none, garbledProbe)]).1.GetResults = ([healthyProbe, garbledProbe], none) :=
  ⟨by decide, (bounded_retention goJSON 2 dataFile (noFiles.set dataFile [])
    [(Fault.none, failedProbe), (Fault.none, healthyProbe), (Fault.none, garbledProbe)]
    (by decide)).1⟩

/-- C2, as stated, fails: a pool that is ONLINE, healthy, without warning and with the
error count `-1` is reported healthy although its error count is not zero. -/
theorem IsPoolHealthy_negative_errors :
    IsPoolHealthy (poolNamed "tank" (-1)) = true ∧
      ¬ ((poolNamed "tank" (-1)).Status = PoolStatusOnline ∧
          (poolNamed "tank" (-1)).Healthy = true ∧
          (poolNamed "tank" (-1)).Warning = false ∧
          (poolNamed "tank" (-1)).Errors = 0) := by
  decide

/-- C2, amended. A pool is healthy if and only if its status is "ONLINE", its healthy flag
is set, its warning flag is not set and its error count is not positive. -/
theorem IsPoolHealthy_iff (p : Pool) :
    IsPoolHealthy p = true ↔
      (p.Status = PoolStatusOnline ∧ p.Healthy = true ∧ p.Warning = false ∧ p.Errors ≤ 0) := by
  unfold IsPoolHealthy
  by_cases h1 : p.Status = PoolStatusOnline
  · cases h2 : p.Healthy <;> cases h3 : p.Warning <;> simp [h1, Int.not_lt]
  · simp [h1]

/-- C3. Evaluator on a successful probe: when `GetPools` returns pools without error,
`queryAndSave` builds a record with one condition result per pool, in the order of the
pools, named "<pool name> == Healthy" and passing exactly when the pool is healthy; the
record succeeds exactly when all its condition results do; and it has no errors. -/
theorem queryAndSave_success_record (codec : Codec) (env : PoolsEnv) (elapsed : Int) (now : Time)
    (st : fileStore) (fs : FileSystem) (fault : Fault) (url : URL) (pools : List Pool)
    (h : GetPools env = .ok pools) :
    ∃ r st' fs', queryAndSave codec env elapsed now st fs fault (some url) = some (r, st', fs') ∧
      r.ConditionResults = pools.map (fun p =>
        { Condition := p.Name ++ str " == Healthy", Success := IsPoolHealthy p }) ∧
      r.Success = r.ConditionResults.all (fun c => c.Success) ∧
      r.Errors = [] := by
  refine ⟨_, _, _, rfl, ?_, ?_, ?_⟩
  · simp [h, buildResult, poolLoop_eq]
  · simp only [h, buildResult, poolLoop_eq, List.nil_append, Bool.false_or, Bool.not_not]
    exact all_healthy_eq pools
  · simp [h, buildResult]

/-- Witness of C3: the appliance reports the single healthy pool "tank". -/
theorem queryAndSave_success_record_witness :
    GetPools (answering 200 "[...]" [poolNamed "tank" 0]) = .ok [poolNamed "tank" 0] ∧
    ∃ r st' fs', queryAndSave goJSON
        (answering 200 "[...]" [poolNamed "tank" 0]) 123000000 epoch
        { dataPath := dataFile, resultsToKeep := 20, results := [] } noFiles .none (some nasURL)
        = some (r, st', fs') ∧
      r.ConditionResults = [poolNamed "tank" 0].map (fun p =>
        { Condition := p.Name ++ str " == Healthy", Success := IsPoolHealthy p }) ∧
      r.Success = r.ConditionResults.all (fun c => c.Success) ∧
      r.Errors = [] :=
  ⟨rfl, queryAndSave_success_record _ (answering 200 "[...]" [poolNamed "tank" 0]) _ _ _ _ _ _
    [poolNamed "tank" 0] rfl⟩

/-- Evaluator on a failed probe, for a non-nil `trueNasHostUrl`: when `GetPools` returns
an error, `queryAndSave` builds a record that fails, carries the error message as its
only error and the single condition result "Connected == false" (failed), and whose HTTP
status is the status code of the error when it is a `TrueNasError` and 0 otherwise. -/
theorem queryAndSave_error_record (codec : Codec) (env : PoolsEnv) (elapsed : Int) (now : Time)
    (st : fileStore) (fs : FileSystem) (fault : Fault) (url : URL) (err : GoError)
    (h : GetPools env = .error err) :
    ∃ r st' fs', queryAndSave codec env elapsed now st fs fault (some url) = some (r, st', fs') ∧
      r.Success = false ∧
      r.Errors = [err.Error] ∧
      r.ConditionResults = [{ Condition := str "Connected == false", Success := false }] ∧
      r.HTTPStatus = (match err with
        | .trueNasError _ code _ => code
        | _ => 0) := by
  obtain ⟨reason, code, message, rfl⟩ := GetPools_error env err h
  exact ⟨_, _, _, rfl, by simp [h, buildResult], by simp [h, buildResult],
    by simp [h, buildResult], by simp [h, buildResult, asTrueNasError]⟩

/-- Example of a failed probe with a non-nil URL: the appliance answers 503 with the body
"busy". -/
theorem queryAndSave_error_record_witness :
    GetPools (answering 503 "busy" []) = .error (.trueNasError none 503 (str "busy")) ∧
    ∃ r st' fs', queryAndSave goJSON
        (answering 503 "busy" []) 123000000 epoch
        { dataPath := dataFile, resultsToKeep := 20, results := [] } noFiles .none (some nasURL)
        = some (r, st', fs') ∧
      r.Success = false ∧
      r.Errors = [(GoError.trueNasError none 503 (str "busy")).Error] ∧
      r.ConditionResults = [{ Condition := str "Connected == false", Success := false }] ∧
      r.HTTPStatus = 503 :=
  ⟨rfl, queryAndSave_error_record _ (answering 503 "busy" []) _ _ _ _ _ _
    (.trueNasError none 503 (str "busy")) rfl⟩

/-- C4, on the code: for a host address that `url.Parse` rejects, `main` only logs the
error and keeps the nil URL; `GetPools` then returns the error of `http.NewRequest` (a
`TrueNasError` with that reason), and `queryAndSave` panics on `trueNasHostUrl.Host`
before it builds a record, so nothing is saved for this error. -/
theorem queryAndSave_malformed_host :
    parseHostUrl urlParseMalformed malformedHost = none ∧
      GetPools malformedHostEnv =
        .error (.trueNasError
          (some (.errorString (str "parse \"http://[::1/api/v2.0/pool\": missing ']' in host")))
          0 []) ∧
      (queryAndSave goJSON malformedHostEnv 123000000 epoch
        { dataPath := dataFile, resultsToKeep := 20, results := [] } (noFiles.set dataFile [])
        .none (parseHostUrl urlParseMalformed malformedHost)).isNone = true :=
  ⟨rfl, rfl, rfl⟩

/-- C7, as stated, fails: when the appliance reports no pool at all, the record built by
`queryAndSave` succeeds although it has no condition result. -/
theorem queryAndSave_zero_pools :
    GetPools (answering 200 "[]" []) = .ok [] ∧
    (queryAndSave goJSON (answering 200 "[]" []) 0 epoch
        { dataPath := dataFile, resultsToKeep := 20, results := [] } noFiles .none
        (some nasURL)).map (fun out => (out.1.Success, out.1.ConditionResults, out.1.Errors))
      = some (true, [], []) :=
  ⟨rfl, rfl⟩

/-- C7, amended. If the record built by `queryAndSave` succeeds, then `GetPools` returned
pools without error, the record has one condition result per pool returned (none when no
pool was returned), every condition result passed, and the record has no errors. -/
theorem queryAndSave_success_invariant (codec : Codec) (env : PoolsEnv) (elapsed : Int)
    (now : Time) (st st' : fileStore) (fs fs' : FileSystem) (fault : Fault)
    (url : Option URL) (r : Result)
    (h : queryAndSave codec env elapsed now st fs fault url = some (r, st', fs'))
    (hs : r.Success = true) :
    (∃ pools, GetPools env = .ok pools ∧ r.ConditionResults.length = pools.length) ∧
      (∀ c ∈ r.ConditionResults, c.Success = true) ∧
      r.Errors = [] := by
  unfold queryAndSave at h
  cases url with
  | none => cases h
  | some u =>
    simp only [Option.some.injEq, Prod.mk.injEq] at h
    obtain ⟨hr, -, -⟩ := h
    subst hr
    cases hp : GetPools env with
    | error err => simp [hp, buildResult] at hs
    | ok pools =>
      simp only [hp, buildResult, poolLoop_eq, List.nil_append, Bool.false_or, Bool.not_not] at hs ⊢
      refine ⟨⟨pools, rfl, by simp⟩, ?_, trivial⟩
      intro c hc
      obtain ⟨p, hp, rfl⟩ := List.mem_map.mp hc
      exact List.all_eq_true.mp hs p hp

/-- Witness of C7 (amended): the appliance reports the single healthy pool "tank". -/
theorem queryAndSave_success_invariant_witness :
    (buildResult (GetPools (answering 200 "[...]" [poolNamed "tank" 0])) 0 epoch nasURL).Success
      = true ∧
    (∀ c ∈ (buildResult (GetPools (answering 200 "[...]" [poolNamed "tank" 0])) 0 epoch
      nasURL).ConditionResults, c.Success = true) :=
  ⟨rfl, (queryAndSave_success_invariant goJSON
    (answering 200 "[...]" [poolNamed "tank" 0]) 0 epoch
    { dataPath := dataFile, resultsToKeep := 20, results := [] } _ noFiles _ .none
    (some nasURL) _ rfl rfl).2.1⟩

/-- C5, on the code: `SaveResult` opens the file without `O_TRUNC`, so a shorter
serialization leaves the end of the previous content in the file. A store of capacity 1
on a fresh data file saves the record of a failed probe and then the (shorter) record of
a healthy probe: both calls succeed, the history is the second record alone, and the
file holds its serialization followed by 31 bytes left over from the first write, which
is not the serialization of the history. -/
theorem SaveResult_leaves_stale_bytes :
    NewFileStore goJSON noFiles .none dataFile 1 =
      (.ok { dataPath := dataFile, resultsToKeep := 1, results := [] }, noFiles.set dataFile []) ∧
    (let s1 := fileStore.SaveResult goJSON
        { dataPath := dataFile, resultsToKeep := 1, results := [] }
        (noFiles.set dataFile []) .none failedProbe
     let s2 := s1.1.SaveResult goJSON s1.2.1 .none healthyProbe
     s1.2.2.isNone = true ∧ s2.2.2.isNone = true ∧ s2.1.GetResults.1 = [healthyProbe] ∧
      encodeResults [healthyProbe] =
        some (str ("[\x7b\"status\":0,\"hostname\":\"nas.example.com\"," ++
          "\"duration\":123000000,\"conditionResults\":[\x7b\"condition\":\"tank == Healthy\"," ++
          "\"success\":true\x7d],\"success\":true,\"timestamp\":\"2024-01-01T00:02:00Z\"\x7d]\n")) ∧
      s2.2.1 dataFile =
        some (str ("[\x7b\"status\":0,\"hostname\":\"nas.example.com\"," ++
          "\"duration\":123000000,\"conditionResults\":[\x7b\"condition\":\"tank == Healthy\"," ++
          "\"success\":true\x7d],\"success\":true,\"timestamp\":\"2024-01-01T00:02:00Z\"\x7d]\n" ++
          "tamp\":\"2024-01-01T00:01:00Z\"\x7d]\n")) ∧
      s2.2.1 dataFile ≠ encodeResults s2.1.GetResults.1) := by
  refine ⟨rfl, ?_⟩
  decide

/-- C8, as stated, fails: JSON strings are coerced to valid UTF-8. A store saves the
record of a probe whose error message holds the byte 0xFF; the call succeeds, and
`NewFileStore` on the same path succeeds but returns a history whose error message holds
U+FFFD instead, so `GetResults` differs from that of the original store. -/
theorem durability_invalid_utf8 :
    (let s1 := fileStore.SaveResult goJSON
        { dataPath := dataFile, resultsToKeep := 20, results := [] }
        (noFiles.set dataFile []) .none garbledProbe
     s1.2.2.isNone = true ∧ s1.1.GetResults.1 = [garbledProbe] ∧
      garbledProbe.Errors = [str "[500] " ++ [byte 0xFF]] ∧
      ((NewFileStore goJSON s1.2.1 .none dataFile 20).1.toOption.map
        fun g => g.GetResults.1.map fun r => r.Errors)
          = some [[str "[500] " ++ [byte 0xEF, byte 0xBF, byte 0xBD]]] ∧
      ((NewFileStore goJSON s1.2.1 .none dataFile 20).1.toOption.map
        fun g => decide (g.GetResults.1 = s1.1.GetResults.1)) = some false) := by
  decide

/-- C8, amended. Durability round trip: if `SaveResult` succeeded and every string of the
records then held (host names, error messages, condition names) is valid UTF-8, then
`NewFileStore` on the same path, without an I/O failure, succeeds, leaves the file as it
is and returns a store whose history, and so whose `GetResults`, equals that of the
original store. -/
theorem durability_roundtrip (f f' : fileStore) (fs fs' : FileSystem) (fault : Fault)
    (result : Result) (N : Int)
    (h : f.SaveResult goJSON fs fault result = (f', fs', none))
    (hv : ∀ r ∈ f'.results, r.validUTF8 = true) :
    NewFileStore goJSON fs' .none f'.dataPath N =
        (.ok { dataPath := f'.dataPath, resultsToKeep := N, results := f'.results }, fs') ∧
      ({ dataPath := f'.dataPath, resultsToKeep := N, results := f'.results } : fileStore).GetResults
        = f'.GetResults := by
  rw [SaveResult_eq] at h
  simp only [Prod.mk.injEq] at h
  obtain ⟨h1, h2, h3⟩ := h
  rw [h1] at h2 h3
  obtain ⟨old, data, hold, henc, hfs⟩ := writeResults_ok goJSON f' fs fault h3
  rw [h2] at hfs
  obtain ⟨henc', hlen⟩ := goJSON_encode_ok _ _ henc
  have hcontent : fs' f'.dataPath = some (data ++ old.drop data.length) := by
    rw [hfs]; simp [FileSystem.set, overwrite]
  refine ⟨?_, rfl⟩
  unfold NewFileStore OpenFile
  simp only [hcontent, Option.getD_some]
  rw [if_pos (by simp only [List.length_append]; omega)]
  have hdec : goJSON.decode (data ++ old.drop data.length) = .ok f'.results := by
    unfold goJSON
    simp only
    rw [decodeResults_encodeResults _ _ _ henc' hv]
  rw [hdec]

/-- Witness of C8 (amended): a fresh store saves the record of a healthy probe. -/
theorem durability_roundtrip_witness :
    (∀ r ∈ [healthyProbe], r.validUTF8 = true) ∧
    ({ dataPath := dataFile, resultsToKeep := 20, results := [healthyProbe] } :
      fileStore).GetResults = ([healthyProbe], none) :=
  ⟨by decide, (durability_roundtrip { dataPath := dataFile, resultsToKeep := 20, results := [] }
    { dataPath := dataFile, resultsToKeep := 20, results := [healthyProbe] }
    (noFiles.set dataFile []) _ .none healthyProbe 20 rfl (by decide)).2⟩

/-- C9, as stated, fails: `NewFileStore` keeps every record of the file. On a data file
that holds two records, `NewFileStore(path, 1)` returns a store of capacity 1 whose
history has two entries, and it still has two entries after the next `SaveResult`. -/
theorem capacity_exceeded_by_file :
    ((NewFileStore goJSON twoRecords .none dataFile 1).1.toOption.map fun f =>
      (f.resultsToKeep, f.GetResults.1.length,
        (f.SaveResult goJSON twoRecords .none healthyProbe).1.GetResults.1.length))
      = some (1, 2, 2) := by
  decide

/-- C9, amended. A store returned by `NewFileStore(path, N)` holds the K entries decoded
from the file (none for a new or empty file), and after every sequence of `SaveResult`
calls `GetResults` returns at most max(N, K) entries. -/
theorem capacity_bound (codec : Codec) (fs fs' : FileSystem) (fault : Fault) (path : GoString)
    (N : Int) (f : fileStore) (steps : List (Fault × Result))
    (h : NewFileStore codec fs fault path N = (.ok f, fs')) :
    f.resultsToKeep = N ∧
      (f.results = [] ∨ codec.decode ((fs' path).getD []) = .ok f.results) ∧
      ((saveAll codec f fs' steps).1.GetResults.1.length : Int) ≤ max N f.results.length := by
  have hN : f.resultsToKeep = N ∧
      (f.results = [] ∨ codec.decode ((fs' path).getD []) = .ok f.results) := by
    unfold NewFileStore at h
    split at h
    · cases h
    · split at h
      · cases h
      · simp only at h
        split at h
        · split at h
          · cases h
          · next hd =>
            simp only [Prod.mk.injEq, Except.ok.injEq] at h
            obtain ⟨rfl, rfl⟩ := h
            exact ⟨rfl, Or.inr hd⟩
        · simp only [Prod.mk.injEq, Except.ok.injEq] at h
          obtain ⟨rfl, rfl⟩ := h
          exact ⟨rfl, Or.inl rfl⟩
  refine ⟨hN.1, hN.2, ?_⟩
  exact saveAll_length_le codec steps f fs' _ (by rw [hN.1]; exact le_max_left _ _)
    (le_max_right _ _)

/-- Witness of C9 (amended): the data file holds two records, the capacity is 1, and one
more record is saved. -/
theorem capacity_bound_witness :
    NewFileStore goJSON twoRecords .none dataFile 1 =
        (.ok { dataPath := dataFile, resultsToKeep := 1, results := [firstRecord, secondRecord] },
          twoRecords) ∧
      ((saveAll goJSON
          { dataPath := dataFile, resultsToKeep := 1, results := [firstRecord, secondRecord] }
          twoRecords [(.none, healthyProbe)]).1.GetResults.1.length : Int) ≤
        max 1 ([firstRecord, secondRecord].length : Int) :=
  ⟨rfl, (capacity_bound goJSON twoRecords twoRecords .none dataFile 1
    { dataPath := dataFile, resultsToKeep := 1, results := [firstRecord, secondRecord] }
    [(.none, healthyProbe)] rfl).2.2⟩

/-- C10. A failed append still advances the in-memory history: when the data file cannot
be opened (the open is refused or the file is missing) or cannot be written, `SaveResult`
returns an error, and the store afterwards holds the record at the end of its history,
with the oldest entry evicted if the cap was exceeded, exactly as after any successful
`SaveResult` of the same record. -/
theorem SaveResult_failure_advances (codec : Codec) (f : fileStore) (fs : FileSystem)
    (fault : Fault) (result : Result)
    (h : (∃ err, fault = .openFails err) ∨ fs f.dataPath = none ∨
      (∃ written err, fault = .writeFails written err)) :
    (f.SaveResult codec fs fault result).2.2 ≠ none ∧
      (f.SaveResult codec fs fault result).1.results =
        (if ((f.results ++ [result]).length : Int) > f.resultsToKeep
          then (f.results ++ [result]).drop 1 else f.results ++ [result]) ∧
      ∀ (fs₂ : FileSystem) (fault₂ : Fault),
        (f.SaveResult codec fs₂ fault₂ result).2.2 = none →
        (f.SaveResult codec fs fault result).1 = (f.SaveResult codec fs₂ fault₂ result).1 := by
  refine ⟨?_, ?_, ?_⟩
  · exact writeResults_fails codec _ fs fault (by
      rcases h with h | h | h
      · exact Or.inl h
      · refine Or.inr (Or.inl ?_)
        rw [← h]
        split <;> rfl
      · exact Or.inr (Or.inr h))
  · rw [SaveResult_store]
  · intro fs₂ fault₂ _
    rw [SaveResult_store, SaveResult_store]

/-- Witness of C10: the data file does not exist, an empty store of capacity 20. -/
theorem SaveResult_failure_advances_witness :
    noFiles dataFile = none ∧
    (fileStore.SaveResult goJSON
      { dataPath := dataFile, resultsToKeep := 20, results := [] } noFiles .none
      ⟨0, [], 0, [], [], true, epoch⟩).2.2 ≠ none :=
  ⟨rfl, (SaveResult_failure_advances goJSON
    { dataPath := dataFile, resultsToKeep := 20, results := [] } noFiles .none
    ⟨0, [], 0, [], [], true, epoch⟩ (Or.inr (Or.inl rfl))).1⟩

/-! ## The polling loop -/

theorem step_once (s : LoopState) (e : LoopEvent)
    (h : (s.timer = .spent ∧ (s.phase = .probing → s.probes = 0) ∧ s.probes ≤ 1) ∨
      (s.timer ≠ .spent ∧ s.phase ≠ .probing ∧ s.probes = 0)) :
    ((s.step e).timer = .spent ∧ ((s.step e).phase = .probing → (s.step e).probes = 0) ∧
        (s.step e).probes ≤ 1) ∨
      ((s.step e).timer ≠ .spent ∧ (s.step e).phase ≠ .probing ∧ (s.step e).probes = 0) := by
  obtain ⟨timer, cancelled, phase, probes⟩ := s
  cases e with
  | intervalElapsed =>
    cases timer <;> simp_all [LoopState.step]
  | cancel => simpa [LoopState.step] using h
  | run preferTimer =>
    cases timer <;> cases phase <;> cases cancelled <;> cases preferTimer <;>
      simp_all [LoopState.step]

theorem run_once (events : List LoopEvent) :
    ∀ s : LoopState,
      ((s.timer = .spent ∧ (s.phase = .probing → s.probes = 0) ∧ s.probes ≤ 1) ∨
        (s.timer ≠ .spent ∧ s.phase ≠ .probing ∧ s.probes = 0)) →
      (s.run events).probes ≤ 1 := by
  induction events with
  | nil =>
    intro s h
    rcases h with h | h
    · exact h.2.2
    · simp [LoopState.run, h.2.2]
  | cons e rest ih =>
    intro s h
    exact ih (s.step e) (step_once s e h)

theorem step_spent (s : LoopState) (e : LoopEvent)
    (h : s.timer = .spent ∧ s.phase ≠ .probing ∧ s.probes = 1) :
    (s.step e).timer = .spent ∧ (s.step e).phase ≠ .probing ∧ (s.step e).probes = 1 := by
  obtain ⟨timer, cancelled, phase, probes⟩ := s
  cases e with
  | intervalElapsed => simp_all [LoopState.step]
  | cancel => simpa [LoopState.step] using h
  | run preferTimer =>
    cases phase <;> cases cancelled <;> simp_all [LoopState.step]

theorem run_spent (events : List LoopEvent) :
    ∀ s : LoopState, (s.timer = .spent ∧ s.phase ≠ .probing ∧ s.probes = 1) →
      (s.run events).timer = .spent ∧ (s.run events).phase ≠ .probing ∧
        (s.run events).probes = 1 := by
  induction events with
  | nil => intro s h; exact h
  | cons e rest ih => intro s h; exact ih (s.step e) (step_spent s e h)

/-- C6, on the code: the timer is created once and never re-armed. After the first cycle
(the interval elapses, the goroutine receives from the timer and completes
`queryAndSave`) the timer is spent, and whatever happens afterwards the loop never
probes again; over any sequence of events `queryAndSave` completes at most once. -/
theorem pollLoop_probes_at_most_once (events : List LoopEvent) :
    (LoopState.init.run [.intervalElapsed, .run true, .run true] =
        { timer := .spent, cancelled := false, phase := .waiting, probes := 1 }) ∧
      (LoopState.init.run ([.intervalElapsed, .run true, .run true] ++ events)).timer = .spent ∧
      (LoopState.init.run ([.intervalElapsed, .run true, .run true] ++ events)).phase ≠ .probing ∧
      (LoopState.init.run ([.intervalElapsed, .run true, .run true] ++ events)).probes = 1 ∧
      (LoopState.init.run events).probes ≤ 1 := by
  have h := run_spent events (LoopState.init.run [.intervalElapsed, .run true, .run true])
    (by decide)
  have hrun : LoopState.init.run ([.intervalElapsed, .run true, .run true] ++ events) =
      (LoopState.init.run [.intervalElapsed, .run true, .run true]).run events := by
    simp [LoopState.run, List.foldl_append]
  rw [hrun]
  exact ⟨by decide, h.1, h.2.1, h.2.2, run_once events LoopState.init (Or.inr (by decide))⟩

end Truenas2Gatus
